import Mathlib

/-!
Verification of the `serve` utility (a generic connection accepter that turns
a shell command into a network service) against its natural-language
specification.  The definitions below are a shallow embedding of the C
sources: `sessions.c` (worker table, stderr demultiplexer, reaper, event
loop), `command.c` (option processing, initialization) and the descriptor
helpers.  Machine integers are modelled as `Nat`/`Int`; bytes are `Nat`
values below 256 with 0 the NUL byte and 10 the newline; fallible calls are
driven by explicit oracle parameters (allocation success, read results,
poll results) so that every C control path appears as a Lean branch.
-/

/-! ### Byte-buffer primitives (sessions.c, stderr demultiplexer)

`ProcessData` in sessions.c is `{ pid_t pid; char *ebuf; size_t nebuf, cebuf; }`.
`ebuf` is `NULL` (here `none`) or an allocation of `cebuf + 1` bytes.
-/

/-! ### Record invariants

`content s` is the meaningful buffered region: the first `nebuf` bytes.
`InvStrict` is the invariant along runs in which the worker never wrote a
NUL byte; `InvBuf` is the general invariant (arbitrary bytes), whose
no-newline clause is restricted to the NUL-free prefix, because a newline
hidden behind an earlier NUL byte is never found by `strchr`. -/

/-! ### Claim C9: swap-with-last removal from the worker table

`tryrmproc` (sessions.c lines 149 to 152) removes worker `p` by
`processes[p] = processes[nproc - 1]; fds[p + 1] = fds[nproc--];`: the
record and the poll slot at `p` are overwritten with the last live ones and
the count shrinks.  Records and poll slots are parallel arrays; a worker's
poll slot is tied to it only positionally. -/

/-! ### Claim C7: errno across the addproc cleanup path

Errno values are the Linux ones; the logic only needs them distinct. -/

/-! ### The event loop `resume` (sessions.c lines 220 to 276)

One iteration is modelled as a pure function of the worker table and an
oracle environment describing what the kernel does in this iteration: the
`waitpid` outcomes ride on each worker (`dead`), as do its `revents` bits
and the outcome of the `read` on its pipe; poll and accept outcomes are
fields of `ResumeEnv`.  The one-time setup block (lines 222 to 230) and
its `malloc` failure path are not modelled: the claims quantify over
iterations after setup.  `poll`'s return value `nevents` is the number of
descriptors with nonzero `revents`; the possibility that the listener has
revents other than POLLIN is not modelled (the code only tests POLLIN
there). -/

structure ProcState where
  pid : Nat
  ebuf : Option (List Nat)
  nebuf : Nat
  cebuf : Nat
deriving DecidableEq, Repr

/-- The record installed by `addproc` (sessions.c lines 122 to 123):
`ebuf = NULL`, `nebuf = cebuf = 0`. -/
def addprocRecord (pid : Nat) : ProcState :=
  { pid := pid, ebuf := none, nebuf := 0, cebuf := 0 }

/-- The bytes `printf("%s", ebuf)` prints: everything up to the first NUL. -/
def takeToNul (l : List Nat) : List Nat :=
  l.takeWhile (fun b => b != 0)

/-- `strchr(s + start, c)` scanning for a byte, stopping at the first NUL:
auxiliary walk over the remaining bytes, carrying the absolute index. -/
def findNLAux : List Nat → Nat → Option Nat
  | [], _ => none
  | b :: rest, i =>
      if b = 0 then none
      else if b = 10 then some i
      else findNLAux rest (i + 1)

/-- `strchr(buf + start, '\n')` as an absolute index into `buf`. -/
def findNL (buf : List Nat) (start : Nat) : Option Nat :=
  findNLAux (buf.drop start) start

/-- `memmove(ebuf, ebuf + src, len)`: copy `len` bytes from offset `src`
down to offset 0, positions at and beyond `len` unchanged. -/
def memmoveFront (l : List Nat) (src len : Nat) : List Nat :=
  (l.drop src).take len ++ l.drop len

/-- `read` depositing `data` at offset `off` of the buffer. -/
def writeAt (l : List Nat) (off : Nat) (data : List Nat) : List Nat :=
  l.take off ++ data ++ l.drop (off + data.length)

/-- The `while (lf) { ... }` loop of `passprocerror` (sessions.c lines 179
to 186), with an explicit fuel for structural termination.  Each found
newline is overwritten with NUL, the line from offset 0 is emitted, `nebuf`
drops by `lf - ebuf + 1`, and the remainder (with its trailing NUL) is
shifted to offset 0.  The first scan starts at the freshly written region
(`resume`), later scans at offset 0. -/
def emitLoopF : Nat → List Nat → Nat → Nat → List Nat × Nat × List (List Nat)
  | 0, buf, nebuf, _ => (buf, nebuf, [])
  | fuel + 1, buf, nebuf, start =>
      match findNL buf start with
      | none => (buf, nebuf, [])
      | some i =>
          let buf1 := buf.set i 0
          let line := takeToNul buf1
          let nebuf1 := nebuf - (i + 1)
          let buf2 := memmoveFront buf1 (i + 1) (nebuf1 + 1)
          let r := emitLoopF fuel buf2 nebuf1 0
          (r.1, r.2.1, line :: r.2.2)

/-- The emission loop with its fuel instantiated.  Under the buffer
invariant every found newline lies strictly below `nebuf` and each
iteration consumes at least one buffered byte, so `nebuf + 1` iterations
always suffice and the fuel branch is dead code; the C loop needs no fuel
because `lf` always lies before the NUL terminator. -/
def emitLoop (buf : List Nat) (nebuf start : Nat) :
    List Nat × Nat × List (List Nat) :=
  emitLoopF (nebuf + 1) buf nebuf start

/-- `passprocerror` (sessions.c lines 157 to 188) for one readable event on
a worker.  `allocOk` is the oracle for the `realloc` call, `readRes` for
`read` (`none`: failure with `errno` set; `some chunk`: success, `chunk`
possibly empty for EOF, at most 128 bytes).  Returns
(failed?, updated record, lines emitted on supervisor stdout).  Note the C
code assigns `cebuf = nebuf + 128` before calling `realloc`, so on
allocation failure the record is returned with `cebuf` already updated. -/
def passprocerror (s : ProcState) (allocOk : Bool)
    (readRes : Option (List Nat)) : Bool × ProcState × List (List Nat) :=
  let grown : Sum ProcState ProcState :=
    if s.nebuf + 128 > s.cebuf then
      if s.nebuf > 65534 - 128 then Sum.inl s
      else
        let cebuf1 := s.nebuf + 128
        if allocOk then
          let old := s.ebuf.getD []
          let grownBuf := old ++ List.replicate (cebuf1 + 1 - old.length) 0
          Sum.inr { s with cebuf := cebuf1, ebuf := some grownBuf }
        else Sum.inl { s with cebuf := cebuf1 }
    else Sum.inr s
  match grown with
  | Sum.inl sFail => (true, sFail, [])
  | Sum.inr s1 =>
      match readRes with
      | none => (true, s1, [])
      | some chunk =>
          let buf0 := s1.ebuf.getD []
          let buf1 := (writeAt buf0 s1.nebuf chunk).set (s1.nebuf + chunk.length) 0
          let r := emitLoop buf1 (s1.nebuf + chunk.length) s1.nebuf
          (false, { s1 with ebuf := some r.1, nebuf := r.2.1 }, r.2.2)

/-- Driving `passprocerror` over a sequence of successful reads (the
allocation oracle always succeeding), collecting all emitted lines;
stops at the first failing invocation. -/
def runChunks (s : ProcState) (cs : List (List Nat)) :
    Bool × ProcState × List (List Nat) :=
  match cs with
  | [] => (false, s, [])
  | c :: rest =>
      let r := passprocerror s true (some c)
      if r.1 then (true, r.2.1, r.2.2)
      else
        let r2 := runChunks r.2.1 rest
        (r2.1, r2.2.1, r.2.2 ++ r2.2.2)

/-- The residual flush of `tryrmproc` (sessions.c lines 143 to 148): when
`nebuf > 0`, one line `<pid>: <buffer up to NUL>` goes to supervisor stderr.
Returns those stderr lines. -/
def reapFlush (s : ProcState) : List (List Nat) :=
  if s.nebuf > 0 then [takeToNul (s.ebuf.getD [])] else []

/-- The record update performed by the residual flush of `tryrmproc`:
`ebuf[0] = 0; nebuf = 0;` when `nebuf > 0`. -/
def flushRecord (s : ProcState) : ProcState :=
  if s.nebuf > 0 then
    { s with ebuf := some ((s.ebuf.getD []).set 0 0), nebuf := 0 }
  else s

/-- The suffix of a byte sequence after its last newline (the content a
trailing read leaves buffered when no more newlines arrive). -/
def tailAfterNL (l : List Nat) : List Nat :=
  (l.reverse.takeWhile (fun b => b != 10)).reverse

def content (s : ProcState) : List Nat :=
  (s.ebuf.getD []).take s.nebuf

def InvStrict (s : ProcState) : Prop :=
  s.nebuf ≤ s.cebuf ∧ s.cebuf ≤ 65534 ∧
  (s.ebuf = none → s.nebuf = 0 ∧ s.cebuf = 0) ∧
  (∀ l, s.ebuf = some l → l.length = s.cebuf + 1 ∧ l[s.nebuf]? = some 0 ∧
    ∀ j, j < s.nebuf → l[j]? ≠ some 0 ∧ l[j]? ≠ some 10)

def InvBuf (s : ProcState) : Prop :=
  s.nebuf ≤ s.cebuf ∧ s.cebuf ≤ 65534 ∧
  (s.ebuf = none → s.nebuf = 0 ∧ s.cebuf = 0) ∧
  (∀ l, s.ebuf = some l → l.length = s.cebuf + 1 ∧ l[s.nebuf]? = some 0 ∧
    ∀ j, j < s.nebuf → (∀ k, k ≤ j → l[k]? ≠ some 0) → l[j]? ≠ some 10)

def swapRemove {α : Type} (l : List α) (p : Nat) : List α :=
  match l with
  | [] => []
  | a :: as => (((a :: as).set p ((a :: as).getLast (List.cons_ne_nil a as))).dropLast)

def EINTR : Nat := 4
def EBADF : Nat := 9
def EAGAIN : Nat := 11
def EMFILE : Nat := 24
def ECONNABORTED : Nat := 103

structure AddprocEnv where
  allocOk : Bool
  allocErrno : Nat
  forkOk : Bool
  forkErrno : Nat
  close0Err : Option Nat
  close1Err : Option Nat
deriving DecidableEq, Repr

/-- `close(2)` changes `errno` only when it fails. -/
def closeErrno (fail : Option Nat) (errno : Nat) : Nat :=
  match fail with
  | none => errno
  | some e => e

/-- The failure paths of `addproc` after `nbpipe` succeeded (sessions.c
lines 102 to 105 and 130 to 133): when `allocproc` or `fork` fails,
control jumps to `cleanup_pipe`, which runs `close(fd[0]); close(fd[1]);
return true;` with no saving or restoring of `errno` around the closes
(contrast `nbpipe` in qualfd.c, which does save it).  The result is
`some e` with `e` the errno value the caller observes when `addproc`
fails, `none` when `fork` succeeds. -/
def addprocFailErrno (env : AddprocEnv) : Option Nat :=
  if !env.allocOk then
    some (closeErrno env.close1Err (closeErrno env.close0Err env.allocErrno))
  else if !env.forkOk then
    some (closeErrno env.close1Err (closeErrno env.close0Err env.forkErrno))
  else none

/-! ### Claims C1 and C8: initialization and option processing (command.c) -/

def INT_MAX : Int := 2147483647

/-- `initmaxproc` (sessions.c lines 47 to 53): clamp the requested cap by
`sysconf(_SC_OPEN_MAX) - 2` when that quantity is positive and smaller. -/
def initmaxproc (sysOpenMax : Int) (val : Int) : Int :=
  if sysOpenMax - 2 > 0 ∧ sysOpenMax - 2 < val then sysOpenMax - 2 else val

/-- Socket type constants (Linux values). -/
def SOCK_STREAM : Int := 1
def SOCK_DGRAM : Int := 2
def SOCK_SEQPACKET : Int := 5

/-- The lookup table of `gettype` (command.c lines 130 to 131):
lexicographically sorted strings with their socket types.  There is no
`dgram` entry. -/
def gettypeTable : List (String × Int) :=
  [("seqpacket", SOCK_SEQPACKET), ("stream", SOCK_STREAM)]

/-- `gettype` (command.c lines 127 to 145): `bsearch` over the sorted
two-entry table, which is exact lookup; `none` models returning `-1` with
`errno = ENOTSUP`. -/
def gettype (s : String) : Option Int :=
  (gettypeTable.find? (fun e => e.1 == s)).map (fun e => e.2)

/-- The pieces of global state the initialization claims are about.
`mproc` is `sessions.c`'s static, declared as `INT_MAX`; `sockType` is
`command.c`'s `type`, declared as `SOCK_STREAM`; `optError` is the `error`
accumulator of `argparse`. -/
structure ServerGlobals where
  mproc : Int
  sockType : Int
  optError : Bool
deriving DecidableEq, Repr

def initialGlobals : ServerGlobals :=
  { mproc := INT_MAX, sockType := SOCK_STREAM, optError := false }

/-- The `-t` case of `processopt` (command.c lines 387 to 394): on
`gettype` failure (errno set to ENOTSUP, hence nonzero) print
"Unsupported socket type" and report a usage error, leaving `type`
unchanged; otherwise store the socket type. -/
def processoptType (g : ServerGlobals) (optarg : String) : ServerGlobals :=
  match gettype optarg with
  | none => { g with optError := true }
  | some t => { g with sockType := t }

/-- One `processopt` dispatch (command.c lines 362 to 403) restricted to
the state modelled here: `-a`, `-b` and `-p` touch only the address,
backlog and a diagnostic, none of which is `mproc` or `type`; anything
else is an unrecognized option, a usage error. -/
def processopt (g : ServerGlobals) (opt : Char) (optarg : String) :
    ServerGlobals :=
  if opt = 't' then processoptType g optarg
  else if opt = 'a' ∨ opt = 'b' ∨ opt = 'p' then g
  else { g with optError := true }

/-- The getopt loop of `argparse` (command.c lines 419 to 420). -/
def argparse (g : ServerGlobals) (opts : List (Char × String)) :
    ServerGlobals :=
  opts.foldl (fun g o => processopt g o.1 o.2) g

/-- `init` (command.c lines 473 to 481) calls `setlocale`, `argparse` and
`mklistener`; none of them, and no other call in the program, invokes
`initmaxproc`, so `mproc` keeps its declared initial value. -/
def init (opts : List (Char × String)) : ServerGlobals :=
  argparse initialGlobals opts

/-- After the option loop, `argparse` prints usage and exits with status 2
when any option produced an error (command.c lines 432 to 435). -/
def argparseExit (opts : List (Char × String)) : Option Nat :=
  if (init opts).optError then some 2 else none

inductive Status where
  | sError
  | sNone
  | sSome
deriving DecidableEq, Repr

structure WorkerIter where
  proc : ProcState
  dead : Bool
  pollerr : Bool
  pollin : Bool
  readRes : Option (List Nat)
  allocOk : Bool
deriving DecidableEq, Repr

/-- The reap sweep (lines 233 to 236): advance only when `tryrmproc`
returns false; a reap removes by swap-with-last and re-examines the same
index.  Structured with a fuel of `ws.length` steps at entry, which always
suffices because each step either shrinks the table or advances the index.
Returns the surviving workers and the number reaped. -/
def sweepF : Nat → List WorkerIter → Nat → List WorkerIter × Nat
  | 0, ws, _ => (ws, 0)
  | fuel + 1, ws, i =>
      if h : i < ws.length then
        if (ws.get ⟨i, h⟩).dead then
          let r := sweepF fuel (swapRemove ws i) i
          (r.1, r.2 + 1)
        else sweepF fuel ws (i + 1)
      else (ws, 0)

def sweep (ws : List WorkerIter) : List WorkerIter × Nat :=
  sweepF ws.length ws 0

/-- `passio` (lines 198 to 218): POLLERR prints a diagnostic and reports
no progress without reading; otherwise POLLIN drives one demultiplexer
call, and any successful call is progress — whether or not any line was
emitted, including a 0-byte EOF read; a failed call prints a diagnostic
and is no progress; no relevant revents, no progress. -/
def passioStep (w : WorkerIter) : Bool × WorkerIter :=
  if w.pollerr then (false, w)
  else if w.pollin then
    let r := passprocerror w.proc w.allocOk w.readRes
    (!r.1, { w with proc := r.2.1 })
  else (false, w)

/-- The forwarding loop (lines 266 to 269): `action |= passio(i)` for
every worker index. -/
def forwardAll (ws : List WorkerIter) : Bool × List WorkerIter :=
  match ws with
  | [] => (false, [])
  | w :: rest =>
      let r := passioStep w
      let rr := forwardAll rest
      (r.1 || rr.1, r.2 :: rr.2)

/-- The number of descriptors among the workers that poll reports ready
(`revents` nonzero: POLLERR or POLLIN here). -/
def readyCount (ws : List WorkerIter) : Nat :=
  (ws.filter (fun w => w.pollerr || w.pollin)).length

/-- `propagateacceptfailure` (lines 193 to 196). -/
def propagateacceptfailure (e : Nat) : Bool :=
  (e != ECONNABORTED) && (e != EINTR) && (e != EMFILE)

structure ResumeEnv where
  pollFail : Bool
  pollErrno : Nat
  listenerReadable : Bool
  acceptOk : Bool
  acceptErrno : Nat
  addprocOk : Bool
  addprocErrno : Nat
  newWorker : WorkerIter
deriving DecidableEq, Repr

structure ResumeOut where
  status : Status
  errno : Option Nat
  table : List WorkerIter
  reaped : Nat
deriving DecidableEq, Repr

/-- One iteration of `resume` (lines 220 to 276) after setup: reap sweep;
below the cap poll everything (an `accept` attempt happens only when the
listener is readable; a successful accept admits the worker and decrements
`nevents`, a failed one records `sockerr`), at the cap poll only the
workers; then forward stderr for every worker when `nevents` is nonzero;
finally classify `sockerr` or report `action`.  `errno` is the value the
caller can observe on the paths that set or preserve it. -/
def resumeStep (ws : List WorkerIter) (mproc : Nat) (env : ResumeEnv) :
    ResumeOut :=
  let sw := sweep ws
  let ws1 := sw.1
  let reaped := sw.2
  if ws1.length < mproc then
    if env.pollFail then
      { status := if env.pollErrno = EINTR then Status.sNone else Status.sError,
        errno := some env.pollErrno, table := ws1, reaped := reaped }
    else
      let nevents0 := (if env.listenerReadable then 1 else 0) + readyCount ws1
      if env.listenerReadable then
        if env.acceptOk then
          if env.addprocOk then
            let ws2 := ws1 ++ [env.newWorker]
            let fwd := if nevents0 - 1 ≠ 0 then forwardAll ws2 else (false, ws2)
            { status := Status.sSome, errno := none, table := fwd.2,
              reaped := reaped }
          else
            { status := Status.sError, errno := some env.addprocErrno,
              table := ws1, reaped := reaped }
        else
          let fwd := if nevents0 ≠ 0 then forwardAll ws1 else (false, ws1)
          if env.acceptErrno ≠ 0 then
            { status := if propagateacceptfailure env.acceptErrno then
                Status.sError else Status.sSome,
              errno := some env.acceptErrno, table := fwd.2, reaped := reaped }
          else
            { status := if fwd.1 then Status.sSome else Status.sNone,
              errno := none, table := fwd.2, reaped := reaped }
      else
        let fwd := if nevents0 ≠ 0 then forwardAll ws1 else (false, ws1)
        { status := if fwd.1 then Status.sSome else Status.sNone,
          errno := none, table := fwd.2, reaped := reaped }
  else
    if env.pollFail then
      { status := if env.pollErrno = EINTR then Status.sNone else Status.sError,
        errno := some env.pollErrno, table := ws1, reaped := reaped }
    else
      let fwd := if readyCount ws1 ≠ 0 then forwardAll ws1 else (false, ws1)
      { status := if fwd.1 then Status.sSome else Status.sNone,
        errno := none, table := fwd.2, reaped := reaped }

/-- What actually counts as progress in one iteration of `resume`: a
successful accept-and-admit, a transient accept failure (nonzero errno),
or a forwarding pass that ran (some descriptor was ready) in which some
`passio` call returned true.  Reaping contributes nothing. -/
def resumeProgress (ws : List WorkerIter) (mproc : Nat) (env : ResumeEnv) :
    Bool :=
  let ws1 := (sweep ws).1
  let below := decide (ws1.length < mproc)
  let accepted := below && env.listenerReadable && env.acceptOk
  let transient := below && env.listenerReadable && !env.acceptOk
  let fwdTable := if accepted then ws1 ++ [env.newWorker] else ws1
  accepted || transient ||
    (decide (readyCount ws1 ≠ 0) && (forwardAll fwdTable).1)

def dummyWorker : WorkerIter :=
  { proc := addprocRecord 0, dead := false, pollerr := false,
    pollin := false, readRes := none, allocOk := true }

/-- A worker whose child has exited and that shows no revents. -/
def wDead : WorkerIter :=
  { proc := addprocRecord 4, dead := true, pollerr := false,
    pollin := false, readRes := none, allocOk := true }

/-- A live worker whose pipe polls with POLLERR only. -/
def wErr : WorkerIter :=
  { proc := addprocRecord 6, dead := false, pollerr := true,
    pollin := false, readRes := none, allocOk := true }

/-- An iteration in which the listener is quiet and poll succeeds. -/
def quietEnv : ResumeEnv :=
  { pollFail := false, pollErrno := 0, listenerReadable := false,
    acceptOk := false, acceptErrno := 0, addprocOk := true,
    addprocErrno := 0, newWorker := dummyWorker }

/-- An iteration with a failed accept reporting EMFILE. -/
def emfileEnv : ResumeEnv :=
  { pollFail := false, pollErrno := 0, listenerReadable := true,
    acceptOk := false, acceptErrno := EMFILE, addprocOk := true,
    addprocErrno := 0, newWorker := dummyWorker }

/-! ### Characterization of the newline scan -/

theorem findNLAux_some {l : List Nat} {i r : Nat} (h : findNLAux l i = some r) :
    ∃ j, r = i + j ∧ l[j]? = some 10 ∧
      ∀ k, k < j → l[k]? ≠ some 0 ∧ l[k]? ≠ some 10 := by
  induction l generalizing i with
  | nil => simp [findNLAux] at h
  | cons b rest ih =>
      by_cases hb0 : b = 0
      · simp [findNLAux, hb0] at h
      · by_cases hb10 : b = 10
        · simp [findNLAux, hb0, hb10] at h
          refine ⟨0, by omega, by simp [hb10], ?_⟩
          intro k hk
          omega
        · simp [findNLAux, hb0, hb10] at h
          obtain ⟨j, hj1, hj2, hj3⟩ := ih h
          refine ⟨j + 1, by omega, by simpa using hj2, ?_⟩
          intro k hk
          cases k with
          | zero => simp [hb0, hb10]
          | succ k => simpa using hj3 k (by omega)

theorem findNLAux_none {l : List Nat} {i : Nat} (h : findNLAux l i = none) :
    ∀ j, l[j]? = some 10 → ∃ k : Nat, k < j ∧ l[k]? = some 0 := by
  induction l generalizing i with
  | nil => intro j hj; simp at hj
  | cons b rest ih =>
      by_cases hb0 : b = 0
      · intro j hj
        cases j with
        | zero => simp [hb0] at hj
        | succ j => exact ⟨0, by omega, by simp [hb0]⟩
      · by_cases hb10 : b = 10
        · simp [findNLAux, hb0, hb10] at h
        · simp [findNLAux, hb0, hb10] at h
          intro j hj
          cases j with
          | zero => simp [hb10] at hj
          | succ j =>
              obtain ⟨k, hk1, hk2⟩ := ih h j (by simpa using hj)
              exact ⟨k + 1, by omega, by simpa using hk2⟩

theorem findNL_some {buf : List Nat} {start r : Nat} (h : findNL buf start = some r) :
    start ≤ r ∧ buf[r]? = some 10 ∧
      ∀ k, start ≤ k → k < r → buf[k]? ≠ some 0 ∧ buf[k]? ≠ some 10 := by
  obtain ⟨j, hj1, hj2, hj3⟩ := findNLAux_some h
  rw [List.getElem?_drop] at hj2
  refine ⟨by omega, by rwa [hj1], ?_⟩
  intro k hk1 hk2
  have := hj3 (k - start) (by omega)
  rw [List.getElem?_drop] at this
  have hks : start + (k - start) = k := by omega
  rwa [hks] at this

theorem findNL_none {buf : List Nat} {start : Nat} (h : findNL buf start = none) :
    ∀ j, start ≤ j → buf[j]? = some 10 →
      ∃ k : Nat, start ≤ k ∧ k < j ∧ buf[k]? = some 0 := by
  intro j hj1 hj2
  have hj2' : (buf.drop start)[j - start]? = some 10 := by
    rw [List.getElem?_drop]
    have : start + (j - start) = j := by omega
    rwa [this]
  obtain ⟨k, hk1, hk2⟩ := findNLAux_none h (j - start) hj2'
  rw [List.getElem?_drop] at hk2
  exact ⟨start + k, by omega, by omega, hk2⟩

/-! ### Access lemmas for the memory operations -/

theorem memmoveFront_length {l : List Nat} {src len : Nat}
    (h : src + len ≤ l.length) : (memmoveFront l src len).length = l.length := by
  simp [memmoveFront]
  omega

theorem memmoveFront_getElem_lt {l : List Nat} {src len j : Nat}
    (hb : src + len ≤ l.length) (h : j < len) :
    (memmoveFront l src len)[j]? = l[src + j]? := by
  unfold memmoveFront
  rw [List.getElem?_append_left (by simp; omega), List.getElem?_take_of_lt h,
    List.getElem?_drop]

theorem memmoveFront_getElem_ge {l : List Nat} {src len j : Nat}
    (hb : src + len ≤ l.length) (h : len ≤ j) :
    (memmoveFront l src len)[j]? = l[j]? := by
  unfold memmoveFront
  rw [List.getElem?_append_right (by simp; omega), List.getElem?_drop]
  have h1 : ((l.drop src).take len).length = len := by simp; omega
  rw [h1]
  have : len + (j - len) = j := by omega
  rw [this]

theorem writeAt_length {l data : List Nat} {off : Nat}
    (h : off + data.length ≤ l.length) : (writeAt l off data).length = l.length := by
  simp [writeAt]
  omega

theorem writeAt_getElem_lt {l data : List Nat} {off j : Nat}
    (hoff : off ≤ l.length) (h : j < off) :
    (writeAt l off data)[j]? = l[j]? := by
  unfold writeAt
  have h1 : (l.take off).length = off := by simp; omega
  rw [List.getElem?_append_left (by rw [List.length_append, h1]; omega)]
  rw [List.getElem?_append_left (by rw [h1]; omega)]
  exact List.getElem?_take_of_lt h

theorem writeAt_getElem_mid {l data : List Nat} {off j : Nat}
    (hoff : off ≤ l.length) (h1 : off ≤ j) (h2 : j < off + data.length) :
    (writeAt l off data)[j]? = data[j - off]? := by
  unfold writeAt
  have hl : (l.take off).length = off := by simp; omega
  rw [List.getElem?_append_left (by rw [List.length_append, hl]; omega)]
  rw [List.getElem?_append_right (by rw [hl]; omega), hl]

theorem writeAt_getElem_ge {l data : List Nat} {off j : Nat}
    (hoff : off ≤ l.length) (h : off + data.length ≤ j) :
    (writeAt l off data)[j]? = l[j]? := by
  unfold writeAt
  have hl : (l.take off ++ data).length = off + data.length := by simp; omega
  rw [List.getElem?_append_right (by rw [hl]; omega), hl, List.getElem?_drop]
  have : off + data.length + (j - (off + data.length)) = j := by omega
  rw [this]

/-! ### Facts about the suffix after the last newline -/

theorem mem_of_get? {l : List Nat} {i a : Nat} (h : l[i]? = some a) : a ∈ l := by
  obtain ⟨hlt, he⟩ := List.getElem?_eq_some.mp h
  exact he ▸ List.getElem_mem hlt

theorem takeWhile_append_all {p : Nat → Bool} {A : List Nat} (B : List Nat)
    (h : ∀ b ∈ A, p b = true) :
    (A ++ B).takeWhile p = A ++ B.takeWhile p := by
  induction A with
  | nil => simp
  | cons a A ih =>
      have ha : p a = true := h a (by simp)
      simp only [List.cons_append, List.takeWhile_cons, ha, if_true]
      rw [ih fun b hb => h b (by simp [hb])]

theorem takeWhile_append_stop {p : Nat → Bool} {A : List Nat} (B : List Nat)
    (h : ∃ b ∈ A, p b = false) :
    (A ++ B).takeWhile p = A.takeWhile p := by
  induction A with
  | nil => obtain ⟨b, hb, _⟩ := h; simp at hb
  | cons a A ih =>
      by_cases ha : p a
      · have h2 : ∃ b ∈ A, p b = false := by
          obtain ⟨b, hb, hpb⟩ := h
          rcases List.mem_cons.mp hb with hba | hbA
          · rw [hba] at hpb; rw [hpb] at ha; simp at ha
          · exact ⟨b, hbA, hpb⟩
        simp only [List.cons_append, List.takeWhile_cons, ha, if_true]
        rw [ih h2]
      · simp only [List.cons_append, List.takeWhile_cons]
        rw [if_neg ha, if_neg ha]

theorem tailAfterNL_append (X Y : List Nat) :
    tailAfterNL (X ++ Y) =
      if 10 ∈ Y then tailAfterNL Y else tailAfterNL X ++ Y := by
  unfold tailAfterNL
  rw [List.reverse_append]
  by_cases h : 10 ∈ Y
  · rw [if_pos h, takeWhile_append_stop]
    exact ⟨10, List.mem_reverse.mpr h, by simp⟩
  · rw [if_neg h, takeWhile_append_all, List.reverse_append, List.reverse_reverse]
    intro b hb
    have : b ≠ 10 := fun hb10 => h (hb10 ▸ List.mem_reverse.mp hb)
    simpa using this

theorem tailAfterNL_no10 {l : List Nat} {b : Nat} (h : b ∈ tailAfterNL l) :
    b ≠ 10 := by
  unfold tailAfterNL at h
  have := List.mem_takeWhile_imp (List.mem_reverse.mp h)
  simpa using this

theorem tailAfterNL_eq_self {l : List Nat} (h : ∀ b ∈ l, b ≠ 10) :
    tailAfterNL l = l := by
  unfold tailAfterNL
  rw [List.takeWhile_eq_self_iff.mpr, List.reverse_reverse]
  intro b hb
  simpa using h b (List.mem_reverse.mp hb)

theorem tailAfterNL_append_cons (X Y : List Nat) :
    tailAfterNL (X ++ 10 :: Y) = tailAfterNL Y := by
  have h1 : (10 : Nat) :: Y = [10] ++ Y := rfl
  rw [h1, ← List.append_assoc, tailAfterNL_append]
  by_cases h : 10 ∈ Y
  · rw [if_pos h]
  · rw [if_neg h, tailAfterNL_append, if_pos (by simp)]
    have h2 : tailAfterNL Y = Y :=
      tailAfterNL_eq_self fun b hb h10 => h (h10 ▸ hb)
    unfold tailAfterNL
    unfold tailAfterNL at h2
    simp [h2]

theorem tailAfterNL_resume (X Y : List Nat) :
    tailAfterNL (tailAfterNL X ++ Y) = tailAfterNL (X ++ Y) := by
  rw [tailAfterNL_append, tailAfterNL_append]
  by_cases h : 10 ∈ Y
  · rw [if_pos h, if_pos h]
  · rw [if_neg h, if_neg h, tailAfterNL_eq_self]
    intro b hb
    exact tailAfterNL_no10 hb

theorem tailAfterNL_eq_nil_iff (l : List Nat) :
    tailAfterNL l = [] ↔ l = [] ∨ l.getLast? = some 10 := by
  unfold tailAfterNL
  rw [List.reverse_eq_nil_iff]
  rcases hrev : l.reverse with _ | ⟨x, xs⟩
  · have hl : l = [] := List.reverse_eq_nil_iff.mp hrev
    simp [hl]
  · have hne : l ≠ [] := by
      intro hl
      rw [hl] at hrev
      simp at hrev
    have hlast : l.getLast? = some x := by
      rw [← List.head?_reverse, hrev]
      rfl
    rw [hlast]
    constructor
    · intro h
      simp only [List.takeWhile_cons] at h
      by_cases hx : x = 10
      · exact Or.inr (by rw [hx])
      · rw [if_pos (by simpa using hx)] at h
        simp at h
    · intro h
      rcases h with h | h
      · exact absurd h hne
      · have hx : x = 10 := by simpa using h
        simp [List.takeWhile_cons, hx]

theorem count10_take_eq_zero {buf : List Nat} {n : Nat}
    (h : ∀ j, j < n → buf[j]? ≠ some 10) : (buf.take n).count 10 = 0 := by
  rw [List.count_eq_zero]
  intro hmem
  obtain ⟨i, hi, he⟩ := List.getElem_of_mem hmem
  have hin : i < n := by
    have := hi
    simp only [List.length_take] at this
    omega
  have h1 : (buf.take n)[i]? = some 10 := by
    rw [List.getElem?_eq_getElem hi, he]
  rw [List.getElem?_take_of_lt hin] at h1
  exact h i hin h1

/-! ### The emission loop preserves the buffer invariant -/

theorem emitLoopF_inv :
    ∀ (fuel : Nat) (buf : List Nat) (nebuf start : Nat),
    nebuf < fuel → nebuf < buf.length → buf[nebuf]? = some 0 → start ≤ nebuf →
    (∀ j, j < start → (∀ k, k ≤ j → buf[k]? ≠ some 0) → buf[j]? ≠ some 10) →
    (emitLoopF fuel buf nebuf start).1.length = buf.length ∧
    (emitLoopF fuel buf nebuf start).2.1 ≤ nebuf ∧
    (emitLoopF fuel buf nebuf start).1[(emitLoopF fuel buf nebuf start).2.1]? =
      some 0 ∧
    (∀ j, j < (emitLoopF fuel buf nebuf start).2.1 →
      (∀ k, k ≤ j → (emitLoopF fuel buf nebuf start).1[k]? ≠ some 0) →
      (emitLoopF fuel buf nebuf start).1[j]? ≠ some 10) := by
  intro fuel
  induction fuel with
  | zero => intro buf nebuf start hf; omega
  | succ fuel ih =>
      intro buf nebuf start hf hlen hterm hstart hpre
      rcases hfind : findNL buf start with _ | i
      · refine ⟨by simp [emitLoopF, hfind], by simp [emitLoopF, hfind], ?_, ?_⟩
        · simpa [emitLoopF, hfind] using hterm
        · simp only [emitLoopF, hfind]
          intro j hj hclean h10
          rcases Nat.lt_or_ge j start with hjs | hjs
          · exact hpre j hjs hclean h10
          · obtain ⟨k, hk1, hk2, hk3⟩ := findNL_none hfind j hjs h10
            exact hclean k (by omega) hk3
      · obtain ⟨hi1, hi2, hi3⟩ := findNL_some hfind
        have hin : i < nebuf := by
          rcases Nat.lt_or_ge i nebuf with h | h
          · exact h
          · rcases Nat.eq_or_lt_of_le h with h | h
            · rw [← h] at hi2; rw [hterm] at hi2; simp at hi2
            · exact absurd hterm (hi3 nebuf hstart h).1
        have hne0 : nebuf ≠ 0 := by omega
        simp only [emitLoopF, hfind]
        set buf1 := buf.set i 0 with hbuf1
        set nebuf1 := nebuf - (i + 1) with hnebuf1
        set buf2 := memmoveFront buf1 (i + 1) (nebuf1 + 1) with hbuf2
        have hb1len : buf1.length = buf.length := by
          rw [hbuf1, List.length_set]
        have hbound : (i + 1) + (nebuf1 + 1) ≤ buf1.length := by
          rw [hb1len]; omega
        have hb2len : buf2.length = buf.length := by
          rw [hbuf2, memmoveFront_length hbound, hb1len]
        have hb2get : ∀ j, j < nebuf1 + 1 → buf2[j]? = buf[i + 1 + j]? := by
          intro j hj
          rw [hbuf2, memmoveFront_getElem_lt hbound hj, hbuf1,
            List.getElem?_set_ne (by omega : i ≠ i + 1 + j)]
        have hterm2 : buf2[nebuf1]? = some 0 := by
          rw [hb2get nebuf1 (by omega)]
          have : i + 1 + nebuf1 = nebuf := by omega
          rw [this]; exact hterm
        have := ih buf2 nebuf1 0 (by omega) (by omega) hterm2 (by omega)
          (by intro j hj; omega)
        obtain ⟨c1, c2, c3, c4⟩ := this
        exact ⟨by rw [c1, hb2len], by omega, c3, c4⟩

theorem take_decomp {buf : List Nat} {i nebuf : Nat} (hin : i < nebuf)
    (hlen : nebuf ≤ buf.length) (h10 : buf[i]? = some 10) :
    buf.take nebuf = buf.take i ++ 10 :: ((buf.drop (i + 1)).take (nebuf - (i + 1))) := by
  have hi : i < buf.length := by omega
  have h1 : nebuf = i + (nebuf - i) := by omega
  rw [h1, List.take_add]
  congr 1
  rw [List.drop_eq_getElem_cons hi]
  have h2 : nebuf - i = (nebuf - (i + 1)) + 1 := by omega
  rw [h2, List.take_succ_cons]
  have h3 : buf[i] = 10 := by
    have := List.getElem?_eq_getElem hi
    rw [h10] at this
    exact (Option.some_inj.mp this).symm
  rw [h3]
  have h4 : i + (nebuf - (i + 1) + 1) - (i + 1) = nebuf - (i + 1) := by omega
  rw [h4]

/-- Main specification of the emission loop when the buffered bytes contain
no NUL: sizes are preserved, the emitted line count equals the newline count
of the buffered region, and what stays buffered is exactly the suffix after
the last newline. -/
theorem emitLoopF_noNul :
    ∀ (fuel : Nat) (buf : List Nat) (nebuf start : Nat),
    nebuf < fuel → nebuf < buf.length → buf[nebuf]? = some 0 → start ≤ nebuf →
    (∀ j, j < nebuf → buf[j]? ≠ some 0) →
    (∀ j, j < start → buf[j]? ≠ some 10) →
    (emitLoopF fuel buf nebuf start).1.length = buf.length ∧
    (emitLoopF fuel buf nebuf start).2.1 ≤ nebuf ∧
    (emitLoopF fuel buf nebuf start).1[(emitLoopF fuel buf nebuf start).2.1]? =
      some 0 ∧
    (∀ j, j < (emitLoopF fuel buf nebuf start).2.1 →
      (emitLoopF fuel buf nebuf start).1[j]? ≠ some 0) ∧
    (∀ j, j < (emitLoopF fuel buf nebuf start).2.1 →
      (emitLoopF fuel buf nebuf start).1[j]? ≠ some 10) ∧
    (emitLoopF fuel buf nebuf start).2.2.length = (buf.take nebuf).count 10 ∧
    (emitLoopF fuel buf nebuf start).1.take (emitLoopF fuel buf nebuf start).2.1 =
      tailAfterNL (buf.take nebuf) := by
  intro fuel
  induction fuel with
  | zero => intro buf nebuf start hf; omega
  | succ fuel ih =>
      intro buf nebuf start hf hlen hterm hstart hnz hpre
      have hno10 : findNL buf start = none →
          ∀ j, j < nebuf → buf[j]? ≠ some 10 := by
        intro hfind j hj h10
        rcases Nat.lt_or_ge j start with hjs | hjs
        · exact hpre j hjs h10
        · obtain ⟨k, hk1, hk2, hk3⟩ := findNL_none hfind j hjs h10
          exact hnz k (by omega) hk3
      rcases hfind : findNL buf start with _ | i
      · have h10 := hno10 hfind
        have hmem10 : ∀ b ∈ buf.take nebuf, b ≠ 10 := by
          intro b hb hb10
          obtain ⟨j, hj, he⟩ := List.getElem_of_mem hb
          have hjn : j < nebuf := by
            have := hj; simp only [List.length_take] at this; omega
          have h1 : (buf.take nebuf)[j]? = some 10 := by
            rw [List.getElem?_eq_getElem hj, he, hb10]
          rw [List.getElem?_take_of_lt hjn] at h1
          exact h10 j hjn h1
        refine ⟨by simp [emitLoopF, hfind], by simp [emitLoopF, hfind],
          by simpa [emitLoopF, hfind] using hterm, ?_, ?_, ?_, ?_⟩
        · simp only [emitLoopF, hfind]
          intro j hj
          exact hnz j (by omega)
        · simp only [emitLoopF, hfind]
          intro j hj
          exact h10 j (by omega)
        · simp only [emitLoopF, hfind]
          exact (count10_take_eq_zero h10).symm
        · simp only [emitLoopF, hfind]
          exact (tailAfterNL_eq_self hmem10).symm
      · obtain ⟨hi1, hi2, hi3⟩ := findNL_some hfind
        have hin : i < nebuf := by
          rcases Nat.lt_or_ge i nebuf with h | h
          · exact h
          · rcases Nat.eq_or_lt_of_le h with h | h
            · rw [← h] at hi2; rw [hterm] at hi2; simp at hi2
            · exact absurd hterm (hi3 nebuf hstart h).1
        have hi3' : ∀ k, k < i → buf[k]? ≠ some 10 := by
          intro k hk
          rcases Nat.lt_or_ge k start with hks | hks
          · exact hpre k hks
          · exact (hi3 k hks hk).2
        simp only [emitLoopF, hfind]
        set buf1 := buf.set i 0 with hbuf1
        set nebuf1 := nebuf - (i + 1) with hnebuf1
        set buf2 := memmoveFront buf1 (i + 1) (nebuf1 + 1) with hbuf2
        have hb1len : buf1.length = buf.length := by
          rw [hbuf1, List.length_set]
        have hbound : (i + 1) + (nebuf1 + 1) ≤ buf1.length := by
          rw [hb1len]; omega
        have hb2len : buf2.length = buf.length := by
          rw [hbuf2, memmoveFront_length hbound, hb1len]
        have hb2get : ∀ j, j < nebuf1 + 1 → buf2[j]? = buf[i + 1 + j]? := by
          intro j hj
          rw [hbuf2, memmoveFront_getElem_lt hbound hj, hbuf1,
            List.getElem?_set_ne (by omega : i ≠ i + 1 + j)]
        have hterm2 : buf2[nebuf1]? = some 0 := by
          rw [hb2get nebuf1 (by omega)]
          have : i + 1 + nebuf1 = nebuf := by omega
          rw [this]; exact hterm
        have hnz2 : ∀ j, j < nebuf1 → buf2[j]? ≠ some 0 := by
          intro j hj
          rw [hb2get j (by omega)]
          exact hnz (i + 1 + j) (by omega)
        have := ih buf2 nebuf1 0 (by omega) (by omega) hterm2 (by omega)
          hnz2 (by intro j hj; omega)
        obtain ⟨c1, c2, c3, c4, c5, c6, c7⟩ := this
        have hseg : buf2.take nebuf1 = (buf.drop (i + 1)).take nebuf1 := by
          apply List.ext_getElem?
          intro n
          by_cases hn : n < nebuf1
          · rw [List.getElem?_take_of_lt hn, List.getElem?_take_of_lt hn,
              hb2get n (by omega), List.getElem?_drop]
          · have hL1 : (buf2.take nebuf1).length ≤ n := by
              simp only [List.length_take]; omega
            have hL2 : ((buf.drop (i + 1)).take nebuf1).length ≤ n := by
              simp only [List.length_take]; omega
            rw [List.getElem?_eq_none hL1, List.getElem?_eq_none hL2]
        have hdecomp := take_decomp hin (by omega) hi2
        have hcnt0 : (buf.take i).count 10 = 0 := count10_take_eq_zero hi3'
        refine ⟨by rw [c1, hb2len], by omega, c3, c4, c5, ?_, ?_⟩
        · simp only [List.length_cons, c6, hseg, hdecomp, List.count_append,
            List.count_cons, hcnt0]
          simp
        · rw [c7, hseg, hdecomp, tailAfterNL_append_cons]

theorem invStrict_addprocRecord (pid : Nat) : InvStrict (addprocRecord pid) := by
  refine ⟨by simp [addprocRecord], by simp [addprocRecord],
    fun _ => ⟨rfl, rfl⟩, ?_⟩
  intro l hl
  simp [addprocRecord] at hl

theorem invBuf_addprocRecord (pid : Nat) : InvBuf (addprocRecord pid) := by
  refine ⟨by simp [addprocRecord], by simp [addprocRecord],
    fun _ => ⟨rfl, rfl⟩, ?_⟩
  intro l hl
  simp [addprocRecord] at hl

/-! ### Unfolding the demultiplexer branches -/

theorem passprocerror_grow_read_eq {s : ProcState} {chunk : List Nat}
    (h1 : s.nebuf + 128 > s.cebuf) (h2 : ¬ s.nebuf > 65534 - 128) :
    passprocerror s true (some chunk) =
      (let g := s.ebuf.getD [] ++
         List.replicate (s.nebuf + 128 + 1 - (s.ebuf.getD []).length) 0
       let buf1 := (writeAt g s.nebuf chunk).set (s.nebuf + chunk.length) 0
       let r := emitLoop buf1 (s.nebuf + chunk.length) s.nebuf
       (false,
        { pid := s.pid, ebuf := some r.1, nebuf := r.2.1, cebuf := s.nebuf + 128 },
        r.2.2)) := by
  simp [passprocerror, h1, h2]

theorem passprocerror_grow_readfail_eq {s : ProcState}
    (h1 : s.nebuf + 128 > s.cebuf) (h2 : ¬ s.nebuf > 65534 - 128) :
    passprocerror s true none =
      (true,
       { s with cebuf := s.nebuf + 128,
                ebuf := some (s.ebuf.getD [] ++
                  List.replicate (s.nebuf + 128 + 1 - (s.ebuf.getD []).length) 0) },
       []) := by
  simp [passprocerror, h1, h2]

theorem passprocerror_nogrow_read_eq {s : ProcState} {allocOk : Bool}
    {chunk : List Nat} (h1 : ¬ s.nebuf + 128 > s.cebuf) :
    passprocerror s allocOk (some chunk) =
      (let buf1 := (writeAt (s.ebuf.getD []) s.nebuf chunk).set
         (s.nebuf + chunk.length) 0
       let r := emitLoop buf1 (s.nebuf + chunk.length) s.nebuf
       (false, { s with ebuf := some r.1, nebuf := r.2.1 }, r.2.2)) := by
  simp [passprocerror, h1]

theorem passprocerror_nogrow_readfail_eq {s : ProcState} {allocOk : Bool}
    (h1 : ¬ s.nebuf + 128 > s.cebuf) :
    passprocerror s allocOk none = (true, s, []) := by
  simp [passprocerror, h1]

theorem passprocerror_cap_eq {s : ProcState} {allocOk : Bool}
    {readRes : Option (List Nat)}
    (h1 : s.nebuf + 128 > s.cebuf) (h2 : s.nebuf > 65534 - 128) :
    passprocerror s allocOk readRes = (true, s, []) := by
  simp [passprocerror, h1, h2]

theorem passprocerror_allocfail_eq {s : ProcState}
    {readRes : Option (List Nat)}
    (h1 : s.nebuf + 128 > s.cebuf) (h2 : ¬ s.nebuf > 65534 - 128) :
    passprocerror s false readRes =
      (true, { s with cebuf := s.nebuf + 128 }, []) := by
  simp [passprocerror, h1, h2]

/-- Behaviour of the write-then-scan phase of the demultiplexer on a buffer
whose active region is NUL-free and newline-free, fed a NUL-free chunk. -/
theorem passWrite_spec (l : List Nat) (nebuf : Nat) (chunk : List Nat)
    (hlen : nebuf + chunk.length < l.length)
    (hnzl : ∀ j, j < nebuf → l[j]? ≠ some 0)
    (hprel : ∀ j, j < nebuf → l[j]? ≠ some 10)
    (hnzc : ∀ b ∈ chunk, b ≠ 0) :
    (emitLoop ((writeAt l nebuf chunk).set (nebuf + chunk.length) 0)
        (nebuf + chunk.length) nebuf).1.length = l.length ∧
    (emitLoop ((writeAt l nebuf chunk).set (nebuf + chunk.length) 0)
        (nebuf + chunk.length) nebuf).2.1 ≤ nebuf + chunk.length ∧
    (emitLoop ((writeAt l nebuf chunk).set (nebuf + chunk.length) 0)
        (nebuf + chunk.length) nebuf).1[(emitLoop
          ((writeAt l nebuf chunk).set (nebuf + chunk.length) 0)
          (nebuf + chunk.length) nebuf).2.1]? = some 0 ∧
    (∀ j, j < (emitLoop ((writeAt l nebuf chunk).set (nebuf + chunk.length) 0)
        (nebuf + chunk.length) nebuf).2.1 →
      (emitLoop ((writeAt l nebuf chunk).set (nebuf + chunk.length) 0)
        (nebuf + chunk.length) nebuf).1[j]? ≠ some 0 ∧
      (emitLoop ((writeAt l nebuf chunk).set (nebuf + chunk.length) 0)
        (nebuf + chunk.length) nebuf).1[j]? ≠ some 10) ∧
    (emitLoop ((writeAt l nebuf chunk).set (nebuf + chunk.length) 0)
        (nebuf + chunk.length) nebuf).2.2.length = chunk.count 10 ∧
    (emitLoop ((writeAt l nebuf chunk).set (nebuf + chunk.length) 0)
        (nebuf + chunk.length) nebuf).1.take (emitLoop
          ((writeAt l nebuf chunk).set (nebuf + chunk.length) 0)
          (nebuf + chunk.length) nebuf).2.1 =
      tailAfterNL (l.take nebuf ++ chunk) := by
  set n := chunk.length with hn
  set buf1 := (writeAt l nebuf chunk).set (nebuf + n) 0 with hbuf1
  have hwlen : (writeAt l nebuf chunk).length = l.length :=
    writeAt_length (by omega)
  have hb1len : buf1.length = l.length := by
    rw [hbuf1, List.length_set, hwlen]
  have g_lt : ∀ j, j < nebuf → buf1[j]? = l[j]? := by
    intro j hj
    rw [hbuf1, List.getElem?_set_ne (by omega : nebuf + n ≠ j),
      writeAt_getElem_lt (by omega) hj]
  have g_mid : ∀ j, nebuf ≤ j → j < nebuf + n → buf1[j]? = chunk[j - nebuf]? := by
    intro j hj1 hj2
    rw [hbuf1, List.getElem?_set_ne (by omega : nebuf + n ≠ j),
      writeAt_getElem_mid (by omega) hj1 hj2]
  have g_term : buf1[nebuf + n]? = some 0 := by
    rw [hbuf1, List.getElem?_set_eq_of_lt _ (by rw [hwlen]; omega)]
  have hnz1 : ∀ j, j < nebuf + n → buf1[j]? ≠ some 0 := by
    intro j hj
    rcases Nat.lt_or_ge j nebuf with hjn | hjn
    · rw [g_lt j hjn]; exact hnzl j hjn
    · rw [g_mid j hjn hj]
      intro hc
      exact hnzc 0 (mem_of_get? hc) rfl
  have hpre1 : ∀ j, j < nebuf → buf1[j]? ≠ some 10 := by
    intro j hj
    rw [g_lt j hj]; exact hprel j hj
  have hmain := emitLoopF_noNul (nebuf + n + 1) buf1 (nebuf + n) nebuf
    (by omega) (by omega) g_term (by omega) hnz1 hpre1
  obtain ⟨c1, c2, c3, c4, c5, c6, c7⟩ := hmain
  have htake : buf1.take (nebuf + n) = l.take nebuf ++ chunk := by
    apply List.ext_getElem?
    intro m
    rcases Nat.lt_or_ge m nebuf with hm | hm
    · rw [List.getElem?_take_of_lt (by omega), g_lt m hm,
        List.getElem?_append_left (by simp; omega),
        List.getElem?_take_of_lt hm]
    · rcases Nat.lt_or_ge m (nebuf + n) with hm2 | hm2
      · rw [List.getElem?_take_of_lt hm2, g_mid m hm hm2,
          List.getElem?_append_right (by simp; omega)]
        have : (l.take nebuf).length = nebuf := by simp; omega
        rw [this]
      · have hL1 : (buf1.take (nebuf + n)).length ≤ m := by
          simp only [List.length_take]; omega
        have hL2 : (l.take nebuf ++ chunk).length ≤ m := by
          simp only [List.length_append, List.length_take]; omega
        rw [List.getElem?_eq_none hL1, List.getElem?_eq_none hL2]
  have hcount : (l.take nebuf ++ chunk).count 10 = chunk.count 10 := by
    rw [List.count_append, count10_take_eq_zero hprel]
    omega
  rw [show emitLoop buf1 (nebuf + n) nebuf = emitLoopF (nebuf + n + 1) buf1
    (nebuf + n) nebuf from rfl]
  refine ⟨by rw [c1, hb1len], c2, c3, fun j hj => ⟨c4 j hj, c5 j hj⟩, ?_, ?_⟩
  · rw [c6, htake, hcount]
  · rw [c7, htake]

/-- Shape of the buffer produced by a successful `realloc` growth step. -/
theorem grownBuf_facts {old : List Nat} {nebuf cebuf : Nat}
    (hlen : old = [] ∨ old.length = cebuf + 1)
    (hnil : old = [] → nebuf = 0)
    (hle : nebuf ≤ cebuf) (hgrow : nebuf + 128 > cebuf) :
    (old ++ List.replicate (nebuf + 128 + 1 - old.length) 0).length =
      nebuf + 129 ∧
    (∀ j, j < nebuf →
      (old ++ List.replicate (nebuf + 128 + 1 - old.length) 0)[j]? = old[j]?) ∧
    (∀ j, j < old.length →
      (old ++ List.replicate (nebuf + 128 + 1 - old.length) 0)[j]? = old[j]?) ∧
    (∀ j, old.length ≤ j → j < nebuf + 129 →
      (old ++ List.replicate (nebuf + 128 + 1 - old.length) 0)[j]? = some 0) ∧
    (old ++ List.replicate (nebuf + 128 + 1 - old.length) 0).take nebuf =
      old.take nebuf := by
  have holdlen : old.length ≤ nebuf + 128 := by
    rcases hlen with h | h
    · rw [h]; simp
    · omega
  have haccl : ∀ j, j < old.length →
      (old ++ List.replicate (nebuf + 128 + 1 - old.length) 0)[j]? = old[j]? := by
    intro j hj
    rw [List.getElem?_append_left hj]
  have hacc : ∀ j, j < nebuf →
      (old ++ List.replicate (nebuf + 128 + 1 - old.length) 0)[j]? = old[j]? := by
    intro j hj
    have hjl : j < old.length := by
      rcases hlen with h | h
      · have := hnil h; omega
      · omega
    rw [List.getElem?_append_left hjl]
  have haccr : ∀ j, old.length ≤ j → j < nebuf + 129 →
      (old ++ List.replicate (nebuf + 128 + 1 - old.length) 0)[j]? = some 0 := by
    intro j hj1 hj2
    rw [List.getElem?_append_right hj1]
    have hlt : j - old.length < nebuf + 128 + 1 - old.length := by omega
    simp [List.getElem?_replicate, hlt]
  refine ⟨by simp; omega, hacc, haccl, haccr, ?_⟩
  apply List.ext_getElem?
  intro m
  rcases Nat.lt_or_ge m nebuf with hm | hm
  · rw [List.getElem?_take_of_lt hm, List.getElem?_take_of_lt hm, hacc m hm]
  · have hL1 : ((old ++ List.replicate (nebuf + 128 + 1 - old.length) 0).take
        nebuf).length ≤ m := by
      simp only [List.length_take]; omega
    have hL2 : (old.take nebuf).length ≤ m := by
      simp only [List.length_take]; omega
    rw [List.getElem?_eq_none hL1, List.getElem?_eq_none hL2]

/-- One successful demultiplexer call on a NUL-free stream: the strict
invariant is preserved, the emitted line count is the newline count of the
chunk, and the new buffered content is the suffix of the old content plus
chunk after the last newline. -/
theorem passprocerror_strict_spec {s : ProcState} {chunk : List Nat}
    (hInv : InvStrict s) (hclen : chunk.length ≤ 128)
    (hnzc : ∀ b ∈ chunk, b ≠ 0)
    (hok : (passprocerror s true (some chunk)).1 = false) :
    InvStrict (passprocerror s true (some chunk)).2.1 ∧
    (passprocerror s true (some chunk)).2.1.pid = s.pid ∧
    (passprocerror s true (some chunk)).2.2.length = chunk.count 10 ∧
    content (passprocerror s true (some chunk)).2.1 =
      tailAfterNL (content s ++ chunk) := by
  obtain ⟨h1, h2, h3, h4⟩ := hInv
  have hold1 : s.ebuf.getD [] = [] ∨ (s.ebuf.getD []).length = s.cebuf + 1 := by
    rcases he : s.ebuf with _ | l
    · exact Or.inl rfl
    · exact Or.inr (by simpa using (h4 l he).1)
  have hold2 : s.ebuf.getD [] = [] → s.nebuf = 0 := by
    rcases he : s.ebuf with _ | l
    · intro _; exact (h3 he).1
    · intro hl
      have hll := (h4 l he).1
      simp only [Option.getD_some] at hl
      rw [hl] at hll
      simp at hll
  have hold_nz : ∀ j, j < s.nebuf → (s.ebuf.getD [])[j]? ≠ some 0 := by
    rcases he : s.ebuf with _ | l
    · intro j hj; have := (h3 he).1; omega
    · intro j hj; simpa using ((h4 l he).2.2 j hj).1
  have hold_pre : ∀ j, j < s.nebuf → (s.ebuf.getD [])[j]? ≠ some 10 := by
    rcases he : s.ebuf with _ | l
    · intro j hj; have := (h3 he).1; omega
    · intro j hj; simpa using ((h4 l he).2.2 j hj).2
  by_cases hgrow : s.nebuf + 128 > s.cebuf
  · by_cases hcap : s.nebuf > 65534 - 128
    · rw [passprocerror_cap_eq hgrow hcap] at hok; simp at hok
    · obtain ⟨hglen, hgacc, hgaccl, hgaccr, hgtake⟩ := grownBuf_facts hold1 hold2 h1 hgrow
      have hgnz : ∀ j, j < s.nebuf →
          (s.ebuf.getD [] ++
            List.replicate (s.nebuf + 128 + 1 - (s.ebuf.getD []).length) 0)[j]? ≠
            some 0 := by
        intro j hj; rw [hgacc j hj]; exact hold_nz j hj
      have hgpre : ∀ j, j < s.nebuf →
          (s.ebuf.getD [] ++
            List.replicate (s.nebuf + 128 + 1 - (s.ebuf.getD []).length) 0)[j]? ≠
            some 10 := by
        intro j hj; rw [hgacc j hj]; exact hold_pre j hj
      obtain ⟨c1, c2, c3, c4, c5, c6⟩ := passWrite_spec
        (s.ebuf.getD [] ++
          List.replicate (s.nebuf + 128 + 1 - (s.ebuf.getD []).length) 0)
        s.nebuf chunk (by rw [hglen]; omega) hgnz hgpre hnzc
      rw [passprocerror_grow_read_eq hgrow hcap]
      dsimp only
      refine ⟨⟨by dsimp only; omega, by dsimp only; omega, by intro h; simp at h, ?_⟩,
        rfl, c5, ?_⟩
      · intro l2 hl2
        dsimp only at hl2
        injection hl2 with hl2
        subst hl2
        exact ⟨by dsimp only; rw [c1, hglen], c3, c4⟩
      · unfold content
        dsimp only [Option.getD_some]
        rw [c6, hgtake]
  · have hesome : ∃ l, s.ebuf = some l := by
      rcases he : s.ebuf with _ | l
      · have := (h3 he).2; omega
      · exact ⟨l, rfl⟩
    obtain ⟨l, he⟩ := hesome
    have hold_len : (s.ebuf.getD []).length = s.cebuf + 1 := by
      rw [he]; simpa using (h4 l he).1
    have hold_term : (s.ebuf.getD [])[s.nebuf]? = some 0 := by
      rw [he]; simpa using (h4 l he).2.1
    obtain ⟨c1, c2, c3, c4, c5, c6⟩ := passWrite_spec
      (s.ebuf.getD []) s.nebuf chunk
      (by rw [hold_len]; omega) hold_nz hold_pre hnzc
    rw [passprocerror_nogrow_read_eq hgrow]
    dsimp only
    refine ⟨⟨by dsimp only; omega, by dsimp only; omega, by intro h; simp at h, ?_⟩,
      rfl, c5, ?_⟩
    · intro l2 hl2
      dsimp only at hl2
      injection hl2 with hl2
      subst hl2
      exact ⟨by dsimp only; rw [c1, hold_len], c3, c4⟩
    · unfold content
      dsimp only [Option.getD_some]
      rw [c6]

theorem content_length {s : ProcState} (hInv : InvStrict s) :
    (content s).length = s.nebuf := by
  obtain ⟨h1, h2, h3, h4⟩ := hInv
  rcases he : s.ebuf with _ | l
  · unfold content; rw [he]
    simp [(h3 he).1]
  · unfold content; rw [he]
    have := (h4 l he).1
    simp
    omega

theorem content_no10 {s : ProcState} (hInv : InvStrict s) :
    ∀ b ∈ content s, b ≠ 10 := by
  obtain ⟨h1, h2, h3, h4⟩ := hInv
  intro b hb hb10
  unfold content at hb
  obtain ⟨j, hj, he⟩ := List.getElem_of_mem hb
  have hjn : j < s.nebuf := by
    have := hj; simp only [List.length_take] at this; omega
  have h5 : (s.ebuf.getD []).take s.nebuf = [] → False := by
    intro hc; rw [hc] at hb; simp at hb
  rcases heb : s.ebuf with _ | l
  · exact h5 (by rw [heb]; simp)
  · have hcl := ((h4 l heb).2.2 j hjn).2
    have h6 : ((s.ebuf.getD []).take s.nebuf)[j]? = some 10 := by
      rw [List.getElem?_eq_getElem hj, he, hb10]
    rw [List.getElem?_take_of_lt hjn, heb, Option.getD_some] at h6
    exact hcl h6

/-- Driving the demultiplexer over a NUL-free chunk sequence: total lines
emitted equal the newline count of the concatenation, and the final
buffered content is the suffix after the last newline. -/
theorem runChunks_spec (cs : List (List Nat)) : ∀ (s : ProcState),
    InvStrict s →
    (∀ c ∈ cs, c.length ≤ 128) →
    (∀ c ∈ cs, ∀ b ∈ c, b ≠ 0) →
    (runChunks s cs).1 = false →
    InvStrict (runChunks s cs).2.1 ∧
    (runChunks s cs).2.1.pid = s.pid ∧
    (runChunks s cs).2.2.length = cs.flatten.count 10 ∧
    content (runChunks s cs).2.1 = tailAfterNL (content s ++ cs.flatten) := by
  induction cs with
  | nil =>
      intro s hInv _ _ _
      refine ⟨hInv, rfl, by simp [runChunks], ?_⟩
      simp only [runChunks, List.flatten_nil, List.append_nil]
      exact (tailAfterNL_eq_self (content_no10 hInv)).symm
  | cons c rest ih =>
      intro s hInv hlen hnz hok
      rcases hr1 : (passprocerror s true (some c)).1 with _ | _
      · obtain ⟨i1, i2, i3, i4⟩ := passprocerror_strict_spec hInv
          (hlen c (by simp)) (hnz c (by simp)) hr1
        have hrest : (runChunks (passprocerror s true (some c)).2.1 rest).1 =
            false := by
          by_contra hc
          simp only [runChunks, hr1, Bool.false_eq_true, if_false] at hok
          rw [Bool.not_eq_false] at hc
          rw [hc] at hok
          simp at hok
        obtain ⟨j1, j2, j3, j4⟩ := ih (passprocerror s true (some c)).2.1 i1
          (fun d hd => hlen d (by simp [hd])) (fun d hd => hnz d (by simp [hd]))
          hrest
        simp only [runChunks, hr1, Bool.false_eq_true, if_false]
        refine ⟨j1, by rw [j2, i2], ?_, ?_⟩
        · simp only [List.length_append, List.flatten_cons, List.count_append]
          omega
        · rw [j4, i4, tailAfterNL_resume, List.flatten_cons, List.append_assoc]
      · simp only [runChunks, hr1, if_true] at hok
        simp at hok

/-- Analogue of `passWrite_spec` for arbitrary byte values: the general
buffer invariant (terminator in place, no newline reachable through a
NUL-free prefix) survives the write-then-scan phase. -/
theorem passWriteInv_spec (l : List Nat) (nebuf : Nat) (chunk : List Nat)
    (hlen : nebuf + chunk.length < l.length)
    (hpre : ∀ j, j < nebuf → (∀ k, k ≤ j → l[k]? ≠ some 0) → l[j]? ≠ some 10) :
    (emitLoop ((writeAt l nebuf chunk).set (nebuf + chunk.length) 0)
        (nebuf + chunk.length) nebuf).1.length = l.length ∧
    (emitLoop ((writeAt l nebuf chunk).set (nebuf + chunk.length) 0)
        (nebuf + chunk.length) nebuf).2.1 ≤ nebuf + chunk.length ∧
    (emitLoop ((writeAt l nebuf chunk).set (nebuf + chunk.length) 0)
        (nebuf + chunk.length) nebuf).1[(emitLoop
          ((writeAt l nebuf chunk).set (nebuf + chunk.length) 0)
          (nebuf + chunk.length) nebuf).2.1]? = some 0 ∧
    (∀ j, j < (emitLoop ((writeAt l nebuf chunk).set (nebuf + chunk.length) 0)
        (nebuf + chunk.length) nebuf).2.1 →
      (∀ k, k ≤ j → (emitLoop ((writeAt l nebuf chunk).set
        (nebuf + chunk.length) 0) (nebuf + chunk.length) nebuf).1[k]? ≠ some 0) →
      (emitLoop ((writeAt l nebuf chunk).set (nebuf + chunk.length) 0)
        (nebuf + chunk.length) nebuf).1[j]? ≠ some 10) := by
  set n := chunk.length with hn
  set buf1 := (writeAt l nebuf chunk).set (nebuf + n) 0 with hbuf1
  have hwlen : (writeAt l nebuf chunk).length = l.length :=
    writeAt_length (by omega)
  have hb1len : buf1.length = l.length := by
    rw [hbuf1, List.length_set, hwlen]
  have g_lt : ∀ j, j < nebuf → buf1[j]? = l[j]? := by
    intro j hj
    rw [hbuf1, List.getElem?_set_ne (by omega : nebuf + n ≠ j),
      writeAt_getElem_lt (by omega) hj]
  have g_term : buf1[nebuf + n]? = some 0 := by
    rw [hbuf1, List.getElem?_set_eq_of_lt _ (by rw [hwlen]; omega)]
  have hpre1 : ∀ j, j < nebuf →
      (∀ k, k ≤ j → buf1[k]? ≠ some 0) → buf1[j]? ≠ some 10 := by
    intro j hj hclean
    rw [g_lt j hj]
    refine hpre j hj ?_
    intro k hk
    rw [← g_lt k (by omega)]
    exact hclean k hk
  have hmain := emitLoopF_inv (nebuf + n + 1) buf1 (nebuf + n)
    nebuf (by omega) (by omega) g_term (by omega) hpre1
  obtain ⟨c1, c2, c3, c4⟩ := hmain
  rw [show emitLoop buf1 (nebuf + n) nebuf = emitLoopF (nebuf + n + 1) buf1
    (nebuf + n) nebuf from rfl]
  exact ⟨by rw [c1, hb1len], c2, c3, c4⟩

/-- The general buffer invariant is preserved by every demultiplexer call
whose `realloc` step does not fail, whatever the bytes read and whether or
not the read itself fails or the 65,534-byte cap rejects the call. -/
theorem passprocerror_invBuf {s : ProcState} {readRes : Option (List Nat)}
    (hInv : InvBuf s) (hlen : ∀ c, readRes = some c → c.length ≤ 128) :
    InvBuf (passprocerror s true readRes).2.1 := by
  obtain ⟨h1, h2, h3, h4⟩ := hInv
  have hold1 : s.ebuf.getD [] = [] ∨ (s.ebuf.getD []).length = s.cebuf + 1 := by
    rcases he : s.ebuf with _ | l
    · exact Or.inl rfl
    · exact Or.inr (by simpa using (h4 l he).1)
  have hold2 : s.ebuf.getD [] = [] → s.nebuf = 0 := by
    rcases he : s.ebuf with _ | l
    · intro _; exact (h3 he).1
    · intro hl
      have hll := (h4 l he).1
      simp only [Option.getD_some] at hl
      rw [hl] at hll
      simp at hll
  have hold_pre : ∀ j, j < s.nebuf →
      (∀ k, k ≤ j → (s.ebuf.getD [])[k]? ≠ some 0) →
      (s.ebuf.getD [])[j]? ≠ some 10 := by
    rcases he : s.ebuf with _ | l
    · intro j hj; have := (h3 he).1; omega
    · intro j hj hcl
      simpa using (h4 l he).2.2 j hj (by simpa using hcl)
  have hold_term : ∀ l2, s.ebuf = some l2 → l2[s.nebuf]? = some 0 := by
    intro l2 hl2; exact (h4 l2 hl2).2.1
  by_cases hgrow : s.nebuf + 128 > s.cebuf
  · by_cases hcap : s.nebuf > 65534 - 128
    · rw [passprocerror_cap_eq hgrow hcap]
      exact ⟨h1, h2, h3, h4⟩
    · obtain ⟨hglen, hgacc, hgaccl, hgaccr, hgtake⟩ :=
        grownBuf_facts hold1 hold2 h1 hgrow
      have hgterm : (s.ebuf.getD [] ++
          List.replicate (s.nebuf + 128 + 1 - (s.ebuf.getD []).length) 0)[s.nebuf]? =
          some 0 := by
        rcases hold1 with hnil2 | hll
        · have hn0 := hold2 hnil2
          exact hgaccr s.nebuf (by rw [hnil2]; simp) (by omega)
        · rw [hgaccl s.nebuf (by omega)]
          rcases hel : s.ebuf with _ | l2
          · rw [hel] at hll; simp at hll
          · simpa using hold_term l2 hel
      have hgpre : ∀ j, j < s.nebuf →
          (∀ k, k ≤ j → (s.ebuf.getD [] ++
            List.replicate (s.nebuf + 128 + 1 - (s.ebuf.getD []).length) 0)[k]? ≠
            some 0) →
          (s.ebuf.getD [] ++
            List.replicate (s.nebuf + 128 + 1 - (s.ebuf.getD []).length) 0)[j]? ≠
            some 10 := by
        intro j hj hcl
        rw [hgacc j hj]
        refine hold_pre j hj ?_
        intro k hk
        rw [← hgacc k (by omega)]
        exact hcl k hk
      rcases readRes with _ | chunk
      · rw [passprocerror_grow_readfail_eq hgrow hcap]
        refine ⟨by dsimp only; omega, by dsimp only; omega,
          by intro h; simp at h, ?_⟩
        intro l2 hl2
        dsimp only at hl2
        injection hl2 with hl2
        subst hl2
        exact ⟨by dsimp only; rw [hglen], hgterm, fun j hj => hgpre j hj⟩
      · have hc : chunk.length ≤ 128 := hlen chunk rfl
        obtain ⟨c1, c2, c3, c4⟩ := passWriteInv_spec
          (s.ebuf.getD [] ++
            List.replicate (s.nebuf + 128 + 1 - (s.ebuf.getD []).length) 0)
          s.nebuf chunk (by rw [hglen]; omega) hgpre
        rw [passprocerror_grow_read_eq hgrow hcap]
        dsimp only
        refine ⟨by dsimp only; omega, by dsimp only; omega,
          by intro h; simp at h, ?_⟩
        intro l2 hl2
        dsimp only at hl2
        injection hl2 with hl2
        subst hl2
        exact ⟨by dsimp only; rw [c1, hglen], c3, c4⟩
  · have hesome : ∃ l, s.ebuf = some l := by
      rcases he : s.ebuf with _ | l
      · have := (h3 he).2; omega
      · exact ⟨l, rfl⟩
    obtain ⟨l, he⟩ := hesome
    have hold_len : (s.ebuf.getD []).length = s.cebuf + 1 := by
      rw [he]; simpa using (h4 l he).1
    rcases readRes with _ | chunk
    · rw [passprocerror_nogrow_readfail_eq hgrow]
      exact ⟨h1, h2, h3, h4⟩
    · have hc : chunk.length ≤ 128 := hlen chunk rfl
      obtain ⟨c1, c2, c3, c4⟩ := passWriteInv_spec
        (s.ebuf.getD []) s.nebuf chunk
        (by rw [hold_len]; omega) hold_pre
      rw [passprocerror_nogrow_read_eq hgrow]
      dsimp only
      refine ⟨by dsimp only; omega, by dsimp only; omega,
        by intro h; simp at h, ?_⟩
      intro l2 hl2
      dsimp only at hl2
      injection hl2 with hl2
      subst hl2
      exact ⟨by dsimp only; rw [c1, hold_len], c3, c4⟩

/-- The reap-time residual flush keeps the general buffer invariant. -/
theorem flushRecord_invBuf {s : ProcState} (hInv : InvBuf s) :
    InvBuf (flushRecord s) := by
  obtain ⟨h1, h2, h3, h4⟩ := hInv
  by_cases hn : s.nebuf > 0
  · have hesome : ∃ l, s.ebuf = some l := by
      rcases he : s.ebuf with _ | l
      · have := (h3 he).1; omega
      · exact ⟨l, rfl⟩
    obtain ⟨l, he⟩ := hesome
    have hll := (h4 l he).1
    unfold flushRecord
    rw [if_pos hn]
    refine ⟨by dsimp only; omega, h2, by intro h; simp at h, ?_⟩
    intro l2 hl2
    dsimp only at hl2
    injection hl2 with hl2
    subst hl2
    rw [he]
    refine ⟨by simpa using hll, ?_, ?_⟩
    · dsimp only [Option.getD_some]
      rw [List.getElem?_set_eq_of_lt _ (by omega)]
    · intro j hj
      dsimp only at hj
      omega
  · unfold flushRecord
    rw [if_neg hn]
    exact ⟨h1, h2, h3, h4⟩

/-! ### Claim C3: line forwarding counts -/

/-- C3 counterexample: the two-byte delivery `"\\0\\n"` contains exactly one
newline and the demultiplexer call succeeds, yet zero lines are emitted for
the worker, because `strchr` never reaches a newline hidden behind an
earlier NUL byte.  This refutes the claim for arbitrary byte values
"including NUL bytes". -/
theorem stderr_line_count_nul_counterexample :
    (runChunks (addprocRecord 7) [[0, 10]]).1 = false ∧
    ([[0, 10]] : List (List Nat)).flatten.count 10 = 1 ∧
    (runChunks (addprocRecord 7) [[0, 10]]).2.2.length = 0 := by decide

/-- C3 (amended): for every worker and every byte sequence delivered to the
stderr demultiplexer in chunks of at most 128 bytes containing exactly `k`
newline bytes and no NUL byte, if no invocation fails (so the worker is not
reaped early and the line-length cap is not exceeded) then exactly `k`
lines are emitted on supervisor stdout for that worker. -/
theorem stderr_line_count_nulfree (pid : Nat) (cs : List (List Nat))
    (h1 : ∀ c ∈ cs, c.length ≤ 128) (h2 : ∀ c ∈ cs, ∀ b ∈ c, b ≠ 0)
    (hok : (runChunks (addprocRecord pid) cs).1 = false) :
    (runChunks (addprocRecord pid) cs).2.2.length = cs.flatten.count 10 :=
  (runChunks_spec cs (addprocRecord pid) (invStrict_addprocRecord pid)
    h1 h2 hok).2.2.1

theorem stderr_line_count_nulfree_witness :
    (runChunks (addprocRecord 5) [[97, 10], [98, 10, 99]]).2.2.length =
      ([[97, 10], [98, 10, 99]] : List (List Nat)).flatten.count 10 :=
  stderr_line_count_nulfree 5 [[97, 10], [98, 10, 99]]
    (by decide) (by decide) (by decide)

/-! ### Claim C4: the per-record buffer invariant -/

set_option maxRecDepth 4096 in
/-- C4 counterexample: after one successful demultiplexer invocation on a
fresh record fed the bytes `"\\0\\n"`, the record has `nebuf = 2` and a
newline byte at index 1, inside the first `nebuf` bytes of the buffer.
The claimed "no newline among the first nebuf bytes" is therefore not an
invariant of the code. -/
theorem buffer_invariant_nul_counterexample :
    (passprocerror (addprocRecord 3) true (some [0, 10])).1 = false ∧
    (passprocerror (addprocRecord 3) true (some [0, 10])).2.1.nebuf = 2 ∧
    ((passprocerror (addprocRecord 3) true
      (some [0, 10])).2.1.ebuf.getD [])[1]? = some 10 := by decide

/-- C4 (amended): the invariant `nebuf ≤ cebuf ≤ 65534`, the allocation
holding `cebuf + 1` bytes with a NUL at index `nebuf` (vacuously for the
fresh record, whose buffer is unallocated with `nebuf = cebuf = 0`), and no
newline preceded only by non-NUL bytes among the first `nebuf` bytes, is
established by `addproc`'s record initialization and preserved by every
demultiplexer invocation whose `realloc` does not fail (including the cap
and read failure paths) and by the reap-time residual flush. -/
theorem buffer_invariant_preserved (pid : Nat) (s : ProcState)
    (readRes : Option (List Nat))
    (hc : ∀ c, readRes = some c → c.length ≤ 128) :
    InvBuf (addprocRecord pid) ∧
    (InvBuf s → InvBuf (passprocerror s true readRes).2.1) ∧
    (InvBuf s → InvBuf (flushRecord s)) :=
  ⟨invBuf_addprocRecord pid,
   fun h => passprocerror_invBuf h hc,
   fun h => flushRecord_invBuf h⟩

theorem buffer_invariant_preserved_witness :
    InvBuf (addprocRecord 2) ∧
    (InvBuf (addprocRecord 2) →
      InvBuf (passprocerror (addprocRecord 2) true (some [65])).2.1) ∧
    (InvBuf (addprocRecord 2) → InvBuf (flushRecord (addprocRecord 2))) :=
  buffer_invariant_preserved 2 (addprocRecord 2) (some [65])
    (by intro c hc; injection hc with hc; subst hc; decide)

/-! ### Claim C5: the residual flush at reap time -/

/-- C5 counterexample: a worker whose final stderr byte is a newline (the
delivery `"\\0\\n"` ends in a newline) still gets one residual line flushed
at reap, because the NUL byte kept the newline from being consumed and left
`nebuf = 2 > 0`. -/
theorem residual_flush_nul_counterexample :
    (runChunks (addprocRecord 9) [[0, 10]]).1 = false ∧
    ([[0, 10]] : List (List Nat)).flatten.getLast? = some 10 ∧
    (reapFlush (runChunks (addprocRecord 9) [[0, 10]]).2.1).length = 1 := by
  decide

/-- C5 (amended): at reap, exactly one residual line is emitted on
supervisor stderr iff the buffered tail is non-empty (`nebuf > 0`), and for
NUL-free deliveries this holds exactly when the worker's bytes are
non-empty and do not end in a newline; zero residual lines otherwise. -/
theorem residual_flush_iff (pid : Nat) (cs : List (List Nat))
    (h1 : ∀ c ∈ cs, c.length ≤ 128) (h2 : ∀ c ∈ cs, ∀ b ∈ c, b ≠ 0)
    (hok : (runChunks (addprocRecord pid) cs).1 = false) :
    ((reapFlush (runChunks (addprocRecord pid) cs).2.1).length = 1 ↔
      cs.flatten ≠ [] ∧ cs.flatten.getLast? ≠ some 10) ∧
    ((reapFlush (runChunks (addprocRecord pid) cs).2.1).length = 0 ↔
      (cs.flatten = [] ∨ cs.flatten.getLast? = some 10)) := by
  obtain ⟨j1, j2, j3, j4⟩ := runChunks_spec cs (addprocRecord pid)
    (invStrict_addprocRecord pid) h1 h2 hok
  have hcl : (content (runChunks (addprocRecord pid) cs).2.1).length =
      (runChunks (addprocRecord pid) cs).2.1.nebuf := content_length j1
  have hc : content (runChunks (addprocRecord pid) cs).2.1 =
      tailAfterNL cs.flatten := by
    rw [j4]
    have : content (addprocRecord pid) = [] := rfl
    rw [this, List.nil_append]
  have hflush : (reapFlush (runChunks (addprocRecord pid) cs).2.1).length =
      if (runChunks (addprocRecord pid) cs).2.1.nebuf > 0 then 1 else 0 := by
    unfold reapFlush
    split <;> simp
  have E : (runChunks (addprocRecord pid) cs).2.1.nebuf > 0 ↔
      cs.flatten ≠ [] ∧ cs.flatten.getLast? ≠ some 10 := by
    rw [← hcl, hc]
    constructor
    · intro hgt
      by_contra hcon
      rw [not_and_or, not_not, not_not] at hcon
      have hnil := (tailAfterNL_eq_nil_iff cs.flatten).mpr hcon
      rw [hnil] at hgt
      simp at hgt
    · rintro ⟨ha, hb⟩
      rcases Nat.eq_zero_or_pos (tailAfterNL cs.flatten).length with hz | hp
      · have hnil := List.length_eq_zero.mp hz
        rcases (tailAfterNL_eq_nil_iff cs.flatten).mp hnil with h | h
        · exact absurd h ha
        · exact absurd h hb
      · exact hp
  rw [hflush]
  by_cases h : (runChunks (addprocRecord pid) cs).2.1.nebuf > 0
  · rw [if_pos h]
    have hp := E.mp h
    refine ⟨⟨fun _ => hp, fun _ => rfl⟩, iff_of_false (by omega) ?_⟩
    intro hq
    rcases hq with hq | hq
    · exact hp.1 hq
    · exact hp.2 hq
  · rw [if_neg h]
    have hq2 : cs.flatten = [] ∨ cs.flatten.getLast? = some 10 := by
      by_contra hcc
      rw [not_or] at hcc
      exact h (E.mpr ⟨hcc.1, hcc.2⟩)
    refine ⟨iff_of_false (by omega) ?_, iff_of_true rfl hq2⟩
    intro hp
    exact h (E.mpr hp)

theorem residual_flush_iff_witness :
    ((reapFlush (runChunks (addprocRecord 11) [[116, 97]]).2.1).length = 1 ↔
      ([[116, 97]] : List (List Nat)).flatten ≠ [] ∧
      ([[116, 97]] : List (List Nat)).flatten.getLast? ≠ some 10) ∧
    ((reapFlush (runChunks (addprocRecord 11) [[116, 97]]).2.1).length = 0 ↔
      (([[116, 97]] : List (List Nat)).flatten = [] ∨
       ([[116, 97]] : List (List Nat)).flatten.getLast? = some 10)) :=
  residual_flush_iff 11 [[116, 97]] (by decide) (by decide) (by decide)

/-! ### Claim C10: state after a failed demultiplexer call -/

/-- C10: on the allocation-failure path the record is not left unchanged:
`cebuf` has already been set to `nebuf + 128` before `realloc` is called,
and it keeps that value when `realloc` fails while `ebuf` stays as it was
(here unallocated), so `cebuf` exceeds the allocated buffer size and the
next invocation on this worker would read 128 bytes into a buffer that was
never grown. -/
theorem passprocerror_allocfail_changes_record :
    (passprocerror (addprocRecord 1) false (some [])).1 = true ∧
    (passprocerror (addprocRecord 1) false (some [])).2.1.cebuf = 128 ∧
    (passprocerror (addprocRecord 1) false (some [])).2.1.ebuf = none ∧
    (addprocRecord 1).cebuf = 0 := by decide

theorem swapRemove_eq {α : Type} (l : List α) (p : Nat) (h : l ≠ []) :
    swapRemove l p = (l.set p (l.getLast h)).dropLast := by
  cases l with
  | nil => exact absurd rfl h
  | cons a as => rfl

theorem swapRemove_length {α : Type} (l : List α) (p : Nat) :
    (swapRemove l p).length = l.length - 1 := by
  cases l with
  | nil => rfl
  | cons a as =>
      rw [swapRemove_eq _ _ (List.cons_ne_nil a as)]
      simp

theorem swapRemove_getElem? {α : Type} (l : List α) (p i : Nat)
    (hp : p < l.length) (hi : i < l.length - 1) :
    (swapRemove l p)[i]? = if i = p then l[l.length - 1]? else l[i]? := by
  have hne : l ≠ [] := by intro h; rw [h] at hp; simp at hp
  rw [swapRemove_eq l p hne, List.dropLast_eq_take, List.length_set,
    List.getElem?_take_of_lt hi]
  have hlast : l.getLast hne = l[l.length - 1] :=
    List.getLast_eq_getElem l hne
  by_cases hip : i = p
  · subst hip
    rw [if_pos rfl, List.getElem?_set_eq_of_lt _ (by omega), hlast,
      List.getElem?_eq_getElem (by omega)]
  · rw [if_neg hip, List.getElem?_set_ne (fun hc => hip hc.symm)]

theorem swapRemove_count {α : Type} [DecidableEq α] (l : List α) (p : Nat)
    (hp : p < l.length) (x : α) :
    (swapRemove l p).count x =
      l.count x - (if l[p] = x then 1 else 0) := by
  have hne : l ≠ [] := by intro h; rw [h] at hp; simp at hp
  set b := l.getLast hne with hb
  have hl : l.dropLast ++ [b] = l := List.dropLast_append_getLast hne
  have hAlen : l.dropLast.length = l.length - 1 := by simp
  have hlcount : l.count x = l.dropLast.count x + (if b = x then 1 else 0) := by
    conv_lhs => rw [← hl]
    simp [List.count_append, List.count_cons]
  rw [swapRemove_eq l p hne, ← hb]
  rcases Nat.lt_or_ge p l.dropLast.length with hpA | hpA
  · have h1 : l.set p b = l.dropLast.set p b ++ [b] := by
      conv_lhs => rw [← hl]
      exact List.set_append_left p b hpA
    rw [h1, List.dropLast_concat]
    have hlp : l[p] = l.dropLast[p] := by
      have hq : l[p]? = l.dropLast[p]? := by
        conv_lhs => rw [← hl]
        exact List.getElem?_append_left hpA
      rw [List.getElem?_eq_getElem hp, List.getElem?_eq_getElem hpA] at hq
      exact Option.some_inj.mp hq
    have hAdec : l.dropLast = l.dropLast.take p ++
        l.dropLast[p] :: l.dropLast.drop (p + 1) := by
      conv_lhs => rw [← List.take_append_drop p l.dropLast,
        List.drop_eq_getElem_cons hpA]
    have hAcount : l.dropLast.count x = (l.dropLast.take p).count x +
        ((l.dropLast.drop (p + 1)).count x +
          if l.dropLast[p] = x then 1 else 0) := by
      conv_lhs => rw [hAdec]
      simp [List.count_append, List.count_cons]
    have hset : (l.dropLast.set p b).count x =
        (l.dropLast.take p).count x + ((l.dropLast.drop (p + 1)).count x +
          if b = x then 1 else 0) := by
      rw [List.set_eq_take_cons_drop b hpA]
      simp [List.count_append, List.count_cons]
    rw [hlp, hset, hlcount, hAcount]
    by_cases e1 : l.dropLast[p] = x <;> by_cases e2 : b = x <;>
      simp [e1, e2] <;> omega
  · have hpe : p = l.dropLast.length := by omega
    have h2 : p - l.dropLast.length = 0 := by omega
    have h1 : l.set p b = l := by
      conv_lhs => rw [← hl]
      rw [List.set_append_right p b (by omega), h2]
      simpa using hl
    rw [h1]
    have hp1 : p = l.length - 1 := by omega
    have hlp : l[p] = b := by
      subst hp1
      rw [hb]
      exact (List.getLast_eq_getElem l hne).symm
    have hdrop : l.dropLast.count x = l.count x - (if b = x then 1 else 0) := by
      omega
    rw [hlp, hdrop]

theorem swapRemove_multiset {α : Type} [DecidableEq α] (l : List α) (p : Nat)
    (hp : p < l.length) :
    (↑(swapRemove l p) : Multiset α) = (↑l : Multiset α).erase l[p] := by
  apply Multiset.ext.mpr
  intro x
  rw [Multiset.coe_count]
  by_cases hx : x = l[p]
  · rw [hx, Multiset.count_erase_self, Multiset.coe_count,
      swapRemove_count l p hp, if_pos rfl]
  · rw [Multiset.count_erase_of_ne hx, Multiset.coe_count,
      swapRemove_count l p hp, if_neg (fun hc => hx hc.symm)]
    omega

/-- C9: removing a terminated worker at index `p` by swap-with-last yields
a table whose multiset of live records is the old multiset minus the
removed record, with the live count decremented by one; and when every
poll slot `i + 1` held the descriptor belonging to worker `i` (expressed
through an arbitrary ownership map `own`), the same holds in the resulting
table, because record array and poll array are compacted identically. -/
theorem tryrmproc_removal_spec (procs : List ProcState) (slots : List Nat)
    (own : ProcState → Nat) (p : Nat)
    (hp : p < procs.length) (hlen : slots.length = procs.length)
    (halign : ∀ i, i < procs.length → slots[i]? = (procs[i]?).map own) :
    (↑(swapRemove procs p) : Multiset ProcState) =
      (↑procs : Multiset ProcState).erase procs[p] ∧
    (swapRemove procs p).length = procs.length - 1 ∧
    (∀ i, i < procs.length - 1 →
      (swapRemove slots p)[i]? = ((swapRemove procs p)[i]?).map own) := by
  refine ⟨swapRemove_multiset procs p hp, swapRemove_length procs p, ?_⟩
  intro i hi
  rw [swapRemove_getElem? slots p i (by omega) (by omega),
    swapRemove_getElem? procs p i hp hi]
  by_cases hip : i = p
  · rw [if_pos hip, if_pos hip, hlen, halign (procs.length - 1) (by omega)]
  · rw [if_neg hip, if_neg hip, halign i (by omega)]

theorem tryrmproc_removal_spec_witness :
    (↑(swapRemove [addprocRecord 11, addprocRecord 22, addprocRecord 33] 0) :
        Multiset ProcState) =
      (↑[addprocRecord 11, addprocRecord 22, addprocRecord 33] :
        Multiset ProcState).erase
        ([addprocRecord 11, addprocRecord 22, addprocRecord 33])[0] ∧
    (swapRemove [addprocRecord 11, addprocRecord 22, addprocRecord 33]
      0).length = 2 ∧
    (∀ i, i < 2 →
      (swapRemove [110, 220, 330] 0)[i]? =
        ((swapRemove [addprocRecord 11, addprocRecord 22, addprocRecord 33]
          0)[i]?).map (fun r => 10 * r.pid)) :=
  tryrmproc_removal_spec
    [addprocRecord 11, addprocRecord 22, addprocRecord 33] [110, 220, 330]
    (fun r => 10 * r.pid) 0 (by decide) (by decide) (by decide)

/-- C7 counterexample: fork fails with EAGAIN, then `close(fd[0])` fails
with EBADF; `addproc` reports EBADF to its caller, not the originating
EAGAIN, because `cleanup_pipe` does not capture and restore errno. -/
theorem addproc_errno_not_preserved :
    addprocFailErrno
      { allocOk := true, allocErrno := 0, forkOk := false,
        forkErrno := EAGAIN, close0Err := some EBADF, close1Err := none } =
      some EBADF ∧
    EBADF ≠ EAGAIN := by decide

/-- C7 (amended): the errno observed by the caller of `addproc` on the
capacity-growth and fork failure paths is the errno of the operation that
originally failed provided both `close` calls in `cleanup_pipe` succeed;
the cleanup itself performs no capture/restore, so a failing close
overwrites the originating errno. -/
theorem addproc_errno_when_closes_succeed (env : AddprocEnv)
    (h0 : env.close0Err = none) (h1 : env.close1Err = none) :
    addprocFailErrno env =
      (if !env.allocOk then some env.allocErrno
       else if !env.forkOk then some env.forkErrno
       else none) := by
  unfold addprocFailErrno closeErrno
  rw [h0, h1]

theorem addproc_errno_when_closes_succeed_witness :
    addprocFailErrno
      { allocOk := true, allocErrno := 0, forkOk := false,
        forkErrno := EAGAIN, close0Err := none, close1Err := none } =
      (if !(true : Bool) then some 0
       else if !(false : Bool) then some EAGAIN
       else none) :=
  addproc_errno_when_closes_succeed
    { allocOk := true, allocErrno := 0, forkOk := false,
      forkErrno := EAGAIN, close0Err := none, close1Err := none } rfl rfl

/-- C8: `gettype` accepts exactly `stream` and `seqpacket`; `dgram` is
rejected with ENOTSUP, `processopt` turns that into a usage error, and
`serve -t dgram <command>` exits with status 2 — although the man page
`serve.tr` documents `dgram` as a supported value mapping to SOCK_DGRAM. -/
theorem gettype_dgram_rejected :
    gettype "stream" = some SOCK_STREAM ∧
    gettype "seqpacket" = some SOCK_SEQPACKET ∧
    gettype "dgram" = none ∧
    (processoptType initialGlobals "dgram").optError = true ∧
    argparseExit [('t', "dgram")] = some 2 := by decide

theorem processopt_mproc (g : ServerGlobals) (c : Char) (a : String) :
    (processopt g c a).mproc = g.mproc := by
  unfold processopt
  by_cases h1 : c = 't'
  · rw [if_pos h1]
    unfold processoptType
    rcases gettype a with _ | t <;> rfl
  · rw [if_neg h1]
    by_cases h2 : c = 'a' ∨ c = 'b' ∨ c = 'p'
    · rw [if_pos h2]
    · rw [if_neg h2]

theorem argparse_mproc (opts : List (Char × String)) :
    ∀ g : ServerGlobals, (argparse g opts).mproc = g.mproc := by
  induction opts with
  | nil => intro g; rfl
  | cons x xs ih =>
      intro g
      have h1 : argparse g (x :: xs) = argparse (processopt g x.1 x.2) xs := rfl
      rw [h1, ih, processopt_mproc]

/-- C1 counterexample: with `sysconf(_SC_OPEN_MAX) = 1024` and the default
cap INT_MAX, the claimed bound would be `min(INT_MAX, 1022) = 1022`, yet
after `init` (here with an empty option list) `mproc` is still INT_MAX:
nothing ever calls `initmaxproc`. -/
theorem init_mproc_counterexample :
    (init []).mproc = INT_MAX ∧
    initmaxproc 1024 INT_MAX = 1022 ∧
    (init []).mproc ≠ min INT_MAX (1024 - 2) := by decide

/-- C1 (amended): `initmaxproc` does compute
`min(user_cap, sysconf(_SC_OPEN_MAX) - 2)` whenever the latter quantity is
positive — but it has no caller: `init` performs locale setup, argument
parsing and listener creation only, so for every run the admission bound
used by `resume`'s `nproc < mproc` test remains the declared initial value
INT_MAX. -/
theorem initmaxproc_min_but_unused (sysOpenMax val : Int)
    (h : 0 < sysOpenMax - 2) (opts : List (Char × String)) :
    initmaxproc sysOpenMax val = min val (sysOpenMax - 2) ∧
    (init opts).mproc = INT_MAX := by
  constructor
  · unfold initmaxproc
    split <;> omega
  · have h1 : (init opts).mproc = initialGlobals.mproc := argparse_mproc opts _
    rw [h1]
    rfl

theorem initmaxproc_min_but_unused_witness :
    initmaxproc 1024 INT_MAX = min INT_MAX (1024 - 2) ∧
    (init [('t', "stream")]).mproc = INT_MAX :=
  initmaxproc_min_but_unused 1024 INT_MAX (by decide) [('t', "stream")]

/-- The forwarding loop made progress iff some worker had POLLIN without
POLLERR and its demultiplexer call succeeded. -/
theorem forwardAll_progress_iff (ws : List WorkerIter) :
    (forwardAll ws).1 = true ↔ ∃ w ∈ ws, (passioStep w).1 = true := by
  induction ws with
  | nil => simp [forwardAll]
  | cons w rest ih =>
      simp only [forwardAll, Bool.or_eq_true, ih, List.mem_cons]
      constructor
      · rintro (h | ⟨w2, hw2, hp⟩)
        · exact ⟨w, Or.inl rfl, h⟩
        · exact ⟨w2, Or.inr hw2, hp⟩
      · rintro ⟨w2, hw2 | hw2, hp⟩
        · exact Or.inl (hw2 ▸ hp)
        · exact Or.inr ⟨w2, hw2, hp⟩

theorem propagateacceptfailure_eq_false_iff (e : Nat) :
    propagateacceptfailure e = false ↔
      (e = ECONNABORTED ∨ e = EINTR ∨ e = EMFILE) := by
  unfold propagateacceptfailure
  by_cases h1 : e = ECONNABORTED <;> by_cases h2 : e = EINTR <;>
    by_cases h3 : e = EMFILE <;> simp [h1, h2, h3, bne]

/-- C2 counterexample: an iteration whose only activity is reaping one
terminated worker — the other worker polls with POLLERR, which `passio`
does not count — reaps a child yet returns NONE: `resume` initializes
`action` after the reap sweep and never sets it for reaped children, so a
reap is not a unit of progress as the claim requires. -/
theorem resume_reap_only_returns_none :
    (resumeStep [wDead, wErr] 100 quietEnv).reaped = 1 ∧
    (resumeStep [wDead, wErr] 100 quietEnv).status = Status.sNone := by
  decide

/-- C2 (amended): excluding the ERROR paths, `resume` returns SOME iff a
connection was accepted and admitted, or an accept failed with a nonzero
(here transient) errno, or the forwarding phase ran (poll reported a ready
descriptor) and some worker had POLLIN without POLLERR whose
`passprocerror` call succeeded — regardless of whether any line was
emitted, so a 0-byte EOF read does count; reaping a child contributes
nothing; otherwise NONE.  (`forwardAll_progress_iff` spells out the
existential reading of the forwarding disjunct.) -/
theorem resume_some_iff_progress (ws : List WorkerIter) (mproc : Nat)
    (env : ResumeEnv)
    (hpf : env.pollFail = false)
    (hadd : env.listenerReadable = true → env.acceptOk = true →
      env.addprocOk = true)
    (hacc : env.listenerReadable = true → env.acceptOk = false →
      env.acceptErrno ≠ 0 ∧ propagateacceptfailure env.acceptErrno = false) :
    ((resumeStep ws mproc env).status = Status.sSome ↔
      resumeProgress ws mproc env = true) ∧
    ((resumeStep ws mproc env).status = Status.sNone ↔
      resumeProgress ws mproc env = false) := by
  by_cases hb : (sweep ws).1.length < mproc
  · by_cases hl : env.listenerReadable = true
    · by_cases ha : env.acceptOk = true
      · have haok := hadd hl ha
        simp [resumeStep, resumeProgress, hb, hl, ha, haok, hpf]
      · have ha' : env.acceptOk = false := by
          revert ha; cases env.acceptOk <;> simp
        obtain ⟨hne, hprop⟩ := hacc hl ha'
        simp [resumeStep, resumeProgress, hb, hl, ha', hpf, hne, hprop]
    · have hl' : env.listenerReadable = false := by
        revert hl; cases env.listenerReadable <;> simp
      by_cases hrc : readyCount (sweep ws).1 ≠ 0
      · simp only [resumeStep, resumeProgress, hl', hpf]
        simp [hb, hrc]
      · simp only [resumeStep, resumeProgress, hl', hpf]
        simp [hb, hrc]
  · by_cases hrc : readyCount (sweep ws).1 ≠ 0
    · simp only [resumeStep, resumeProgress, hpf]
      simp [hb, hrc]
    · simp only [resumeStep, resumeProgress, hpf]
      simp [hb, hrc]

theorem resume_some_iff_progress_witness :
    (((resumeStep [wErr] 3 quietEnv).status = Status.sSome ↔
      resumeProgress [wErr] 3 quietEnv = true) ∧
     ((resumeStep [wErr] 3 quietEnv).status = Status.sNone ↔
      resumeProgress [wErr] 3 quietEnv = false)) :=
  resume_some_iff_progress [wErr] 3 quietEnv rfl (by decide) (by decide)

/-- C6: for every errno value `e` of a failed accept, the iteration
survives with SOME exactly when `e` is one of ECONNABORTED, EINTR, EMFILE,
and otherwise fails with ERROR; in both cases the errno the caller
observes is `e`. -/
theorem accept_errno_classification (ws : List WorkerIter) (mproc : Nat)
    (env : ResumeEnv) (e : Nat)
    (hcap : (sweep ws).1.length < mproc) (hpf : env.pollFail = false)
    (hlr : env.listenerReadable = true) (hok : env.acceptOk = false)
    (he : env.acceptErrno = e) (hne : e ≠ 0) :
    ((resumeStep ws mproc env).status = Status.sSome ↔
      (e = ECONNABORTED ∨ e = EINTR ∨ e = EMFILE)) ∧
    ((resumeStep ws mproc env).status = Status.sError ↔
      ¬(e = ECONNABORTED ∨ e = EINTR ∨ e = EMFILE)) ∧
    (resumeStep ws mproc env).errno = some e := by
  have hpe := propagateacceptfailure_eq_false_iff e
  rcases hpb : propagateacceptfailure e with _ | _
  · have hd : (e = ECONNABORTED ∨ e = EINTR ∨ e = EMFILE) := hpe.mp hpb
    simp [resumeStep, hcap, hpf, hlr, hok, he, hne, hpb, hd]
  · have hnd : ¬(e = ECONNABORTED ∨ e = EINTR ∨ e = EMFILE) := by
      rw [← hpe, hpb]
      simp
    simp [resumeStep, hcap, hpf, hlr, hok, he, hne, hpb, hnd]

theorem accept_errno_classification_witness :
    ((resumeStep [] 1 emfileEnv).status = Status.sSome ↔
      (EMFILE = ECONNABORTED ∨ EMFILE = EINTR ∨ EMFILE = EMFILE)) ∧
    ((resumeStep [] 1 emfileEnv).status = Status.sError ↔
      ¬(EMFILE = ECONNABORTED ∨ EMFILE = EINTR ∨ EMFILE = EMFILE)) ∧
    (resumeStep [] 1 emfileEnv).errno = some EMFILE :=
  accept_errno_classification [] 1 emfileEnv EMFILE (by decide) rfl rfl rfl
    rfl (by decide)
